import Mathlib

-- Verification of the scripture-reference normalization, slug derivation,
-- text-fetch fallback and multi-source reading lookup of scripts/daily.py.
--
-- Strings are modelled as Lean `String` (a list of characters); the Python
-- regular expressions used by the script are modelled by explicit
-- backtracking matchers that enumerate alternatives in the priority order of
-- Python's `re` engine (greedy quantifiers try longer matches first, lazy
-- ones shorter, `X?` tries to match before skipping).  `str.lower` is
-- modelled on the ASCII range (identity elsewhere), and `\d` / `[A-Za-z]`
-- are the ASCII classes the script's data actually uses.

namespace Daily

-- ## Character classes

-- The set matched by `\s` (and stripped by `str.strip()`) for Python `str`.
def pyIsSpace (c : Char) : Bool :=
  let n := c.toNat
  (9 ≤ n && n ≤ 13) || (28 ≤ n && n ≤ 31) || n == 32 || n == 133 || n == 160 ||
  n == 5760 || (8192 ≤ n && n ≤ 8202) || n == 8232 || n == 8233 ||
  n == 8239 || n == 8287 || n == 12288

def isDig (c : Char) : Bool := 48 ≤ c.toNat && c.toNat ≤ 57

def isAlphaC (c : Char) : Bool :=
  (65 ≤ c.toNat && c.toNat ≤ 90) || (97 ≤ c.toNat && c.toNat ≤ 122)

-- the class `[A-Za-z ]` of the reference regexes
def letterSpace (c : Char) : Bool := isAlphaC c || c == ' '

-- the class `[1-3]`
def digit13 (c : Char) : Bool := c == '1' || c == '2' || c == '3'

-- the class `[\d,\- ]` (slug regex verse group)
def classVerse (c : Char) : Bool := isDig c || c == ',' || c == '-' || c == ' '

-- characters stripped by `.strip(" ,;:-")`
def punctChar (c : Char) : Bool :=
  c == ' ' || c == ',' || c == ';' || c == ':' || c == '-'

-- `[a-z0-9]`, the characters kept by the generic slugification
def lowerAlnum (c : Char) : Bool :=
  (97 ≤ c.toNat && c.toNat ≤ 122) || isDig c

-- ASCII model of `str.lower` (identity outside A-Z)
def pyToLower (c : Char) : Char :=
  if 65 ≤ c.toNat && c.toNat ≤ 90 then Char.ofNat (c.toNat + 32) else c

-- ## Generic list-of-char helpers (Python string primitives)

-- `re.sub(p+, rep, s)` for a character class `bad`: each maximal run of
-- `bad` characters is replaced by the single character `rep`.
def collapseRuns (bad : Char → Bool) (rep : Char) : Bool → List Char → List Char
  | _, [] => []
  | true, c :: cs =>
    if bad c then collapseRuns bad rep true cs
    else c :: collapseRuns bad rep false cs
  | false, c :: cs =>
    if bad c then rep :: collapseRuns bad rep true cs
    else c :: collapseRuns bad rep false cs

-- `re.sub(r"\s+", " ", s)`
def collapseWs (l : List Char) : List Char := collapseRuns pyIsSpace ' ' false l

-- removing trailing characters satisfying `p` (Python `rstrip`)
def stripRightBy (p : Char → Bool) : List Char → List Char
  | [] => []
  | c :: cs =>
    let r := stripRightBy p cs
    if r.isEmpty && p c then [] else c :: r

-- Python `str.strip(chars)`: drop leading and trailing `p`-characters
def stripBy (p : Char → Bool) (l : List Char) : List Char :=
  stripRightBy p (l.dropWhile p)

def pyStrip (l : List Char) : List Char := stripBy pyIsSpace l

def stripPunct (l : List Char) : List Char := stripBy punctChar l

-- `.replace("–", "-").replace("—", "-")` (single-character replaces)
def replDash (c : Char) : Char := if c == '–' || c == '—' then '-' else c

-- `.replace(" to ", "-")`: left-to-right, non-overlapping
def replTo : List Char → List Char
  | [] => []
  | [c] => [c]
  | [c, c2] => [c, c2]
  | [c, c2, c3] => [c, c2, c3]
  | c :: c2 :: c3 :: c4 :: rest =>
    if c = ' ' ∧ c2 = 't' ∧ c3 = 'o' ∧ c4 = ' ' then '-' :: replTo rest
    else c :: replTo (c2 :: c3 :: c4 :: rest)

-- ## Static book table (BOOK_MAP) and deuterocanon set

def BOOK_MAP : List (String × String) := [
  ("Gen", "Genesis"), ("Genesis", "Genesis"),
  ("Ex", "Exodus"), ("Exodus", "Exodus"),
  ("Lev", "Leviticus"), ("Leviticus", "Leviticus"),
  ("Num", "Numbers"), ("Numbers", "Numbers"),
  ("Dt", "Deuteronomy"), ("Deut", "Deuteronomy"), ("Deuteronomy", "Deuteronomy"),
  ("Jos", "Joshua"), ("Joshua", "Joshua"), ("Jgs", "Judges"), ("Judges", "Judges"),
  ("Ru", "Ruth"), ("Ruth", "Ruth"),
  ("1 Sm", "1 Samuel"), ("1 Samuel", "1 Samuel"), ("2 Sm", "2 Samuel"), ("2 Samuel", "2 Samuel"),
  ("1 Kgs", "1 Kings"), ("1 Kings", "1 Kings"), ("2 Kgs", "2 Kings"), ("2 Kings", "2 Kings"),
  ("1 Chr", "1 Chronicles"), ("1 Chronicles", "1 Chronicles"),
  ("2 Chr", "2 Chronicles"), ("2 Chronicles", "2 Chronicles"),
  ("Ezr", "Ezra"), ("Ezra", "Ezra"), ("Neh", "Nehemiah"), ("Nehemiah", "Nehemiah"),
  ("Tob", "Tobit"), ("Tb", "Tobit"), ("Tobit", "Tobit"),
  ("Jdt", "Judith"), ("Judith", "Judith"), ("Est", "Esther"), ("Esther", "Esther"),
  ("Job", "Job"), ("Ps", "Psalm"), ("Psalms", "Psalm"), ("Psalm", "Psalm"),
  ("Prv", "Proverbs"), ("Proverbs", "Proverbs"),
  ("Qoheleth", "Ecclesiastes"), ("Eccl", "Ecclesiastes"), ("Ecclesiastes", "Ecclesiastes"),
  ("Song", "Song of Songs"), ("Sg", "Song of Songs"), ("Song of Songs", "Song of Songs"),
  ("Wis", "Wisdom"), ("Wisdom", "Wisdom"), ("Sir", "Sirach"), ("Sirach", "Sirach"),
  ("Is", "Isaiah"), ("Isaiah", "Isaiah"), ("Jer", "Jeremiah"), ("Jeremiah", "Jeremiah"),
  ("Lam", "Lamentations"), ("Lamentations", "Lamentations"),
  ("Bar", "Baruch"), ("Baruch", "Baruch"), ("Ez", "Ezekiel"), ("Ezekiel", "Ezekiel"),
  ("Dn", "Daniel"), ("Daniel", "Daniel"),
  ("Hos", "Hosea"), ("Hosea", "Hosea"), ("Jl", "Joel"), ("Joel", "Joel"),
  ("Am", "Amos"), ("Amos", "Amos"), ("Ob", "Obadiah"), ("Obadiah", "Obadiah"),
  ("Jon", "Jonah"), ("Jonah", "Jonah"), ("Mi", "Micah"), ("Micah", "Micah"),
  ("Na", "Nahum"), ("Nahum", "Nahum"), ("Hab", "Habakkuk"), ("Habakkuk", "Habakkuk"),
  ("Zep", "Zephaniah"), ("Zephaniah", "Zephaniah"), ("Hg", "Haggai"), ("Haggai", "Haggai"),
  ("Zec", "Zechariah"), ("Zechariah", "Zechariah"), ("Mal", "Malachi"), ("Malachi", "Malachi"),
  ("1 Mc", "1 Maccabees"), ("1 Maccabees", "1 Maccabees"),
  ("2 Mc", "2 Maccabees"), ("2 Maccabees", "2 Maccabees"),
  ("Mt", "Matthew"), ("Matthew", "Matthew"),
  ("Mk", "Mark"), ("Mark", "Mark"),
  ("Lk", "Luke"), ("Lk.", "Luke"), ("Luke", "Luke"),
  ("Jn", "John"), ("John", "John"), ("Acts", "Acts"),
  ("Rom", "Romans"), ("Romans", "Romans"),
  ("1 Cor", "1 Corinthians"), ("1 Corinthians", "1 Corinthians"),
  ("2 Cor", "2 Corinthians"), ("2 Corinthians", "2 Corinthians"),
  ("Gal", "Galatians"), ("Galatians", "Galatians"),
  ("Eph", "Ephesians"), ("Ephesians", "Ephesians"),
  ("Phil", "Philippians"), ("Philippians", "Philippians"),
  ("Col", "Colossians"), ("Colossians", "Colossians"),
  ("1 Thes", "1 Thessalonians"), ("1 Thessalonians", "1 Thessalonians"),
  ("2 Thes", "2 Thessalonians"), ("2 Thessalonians", "2 Thessalonians"),
  ("1 Tm", "1 Timothy"), ("1 Timothy", "1 Timothy"),
  ("2 Tm", "2 Timothy"), ("2 Timothy", "2 Timothy"),
  ("Tit", "Titus"), ("Titus", "Titus"), ("Phlm", "Philemon"), ("Philemon", "Philemon"),
  ("Heb", "Hebrews"), ("Hebrews", "Hebrews"), ("Jas", "James"), ("James", "James"),
  ("1 Pt", "1 Peter"), ("1 Peter", "1 Peter"), ("2 Pt", "2 Peter"), ("2 Peter", "2 Peter"),
  ("1 Jn", "1 John"), ("1 John", "1 John"), ("2 Jn", "2 John"), ("2 John", "2 John"),
  ("3 Jn", "3 John"), ("3 John", "3 John"), ("Jude", "Jude"),
  ("Rv", "Revelation"), ("Revelation", "Revelation")]

def DEUTERO : List String :=
  ["Tobit", "Judith", "Wisdom", "Sirach", "Baruch", "1 Maccabees", "2 Maccabees"]

-- ## Normalizers (_normalize_book, _normalize_verses)

def normalize_book (s : String) : String :=
  let a : String := ⟨collapseWs (pyStrip s.data)⟩
  (BOOK_MAP.lookup a).getD a

def normalizeVersesL (l : List Char) : List Char :=
  let v1 := pyStrip l
  let v2 := replTo (v1.map replDash)
  let v3 := v2.filter classVerse
  let v4 := v3.filter (fun c => !pyIsSpace c)
  let v5 := collapseRuns (fun c => c == ',') ',' false v4
  stripBy (fun c => c == ',') v5

def normalize_verses (s : String) : String := ⟨normalizeVersesL s.data⟩

-- ## The reference regexes, as priority-ordered backtracking matchers
--
-- _sanitize_ref uses  `^\s*([1-3]?\s?[A-Za-z ]+)\s+(\d+):(.+?)\s*$`  (matchA),
-- slug_from_reference `^\s*([1-3]?\s?[A-Za-z ]+)\s+(\d+):([\d,\- ]+)\s*$` (matchB),
-- fetch_kjv_text      `^\s*([1-3]?\s?[A-Za-z ]+)\s+\d+:` (matchBookGroup).

-- candidates for `[A-Za-z ]+` (greedy: longest first), with what remains
def lettersCands (t : List Char) : List (List Char × List Char) :=
  let n := (t.takeWhile letterSpace).length
  (List.range n).map (fun j => (t.take (n - j), t.drop (n - j)))

-- candidates for `\s?[A-Za-z ]+` (the optional whitespace prefers to match)
def wsOptCands : List Char → List (List Char × List Char)
  | [] => []
  | w :: t2 =>
    (if pyIsSpace w then (lettersCands t2).map (fun p => (w :: p.1, p.2)) else []) ++
    lettersCands (w :: t2)

-- candidates for the whole group `[1-3]?\s?[A-Za-z ]+`, in priority order:
-- the optional pieces prefer to match.
def g1Cands : List Char → List (List Char × List Char)
  | [] => []
  | d :: t1 =>
    (if digit13 d then (wsOptCands t1).map (fun p => (d :: p.1, p.2)) else []) ++
    wsOptCands (d :: t1)

-- `\s+(\d+):` after the book group.  Backtracking inside this fragment is
-- vacuous: a character handed back by `\s+` is whitespace and cannot match
-- `\d`, one handed back by `\d+` is a digit and cannot match `:`, so the
-- maximal-run reading is exactly Python's behaviour.
def colonSplit : List Char → Option (List Char)
  | [] => none
  | c :: rest => if c = ':' then some rest else none

def sepChapColon (r : List Char) : Option (List Char × List Char) :=
  let w := r.takeWhile pyIsSpace
  if w.isEmpty then none
  else
    let r1 := r.dropWhile pyIsSpace
    let d := r1.takeWhile isDig
    if d.isEmpty then none
    else (colonSplit (r1.drop d.length)).map (fun rest => (d, rest))

-- `(.+?)\s*$` : lazy, so the shortest nonempty newline-free prefix whose
-- complement is all whitespace ( `$` also matches before a final newline,
-- which is itself whitespace, so the test is just "suffix all whitespace").
def tailLazy : List Char → Option (List Char)
  | [] => none
  | c :: rest =>
    if c = '\n' then none
    else if rest.all pyIsSpace then some [c]
    else (tailLazy rest).map (fun v => c :: v)

-- `([\d,\- ]+)\s*$` : greedy; shortening the group only moves class
-- characters into `\s*`, which cannot absorb the first offending
-- non-whitespace character, so the maximal run either works or nothing does.
def tailGreedy (r : List Char) : Option (List Char) :=
  let v := r.takeWhile classVerse
  if v.isEmpty then none
  else if (r.drop v.length).all pyIsSpace then some v else none

-- `^\s*` is greedy with backtracking (longest skip first), then the book
-- group candidates, then the rigid `\s+(\d+):`, then the verse tail.
def matchWith (tl : List Char → Option (List Char)) (s : List Char) :
    Option (List Char × List Char × List Char) :=
  let k := (s.takeWhile pyIsSpace).length
  (List.range (k + 1)).findSome? (fun j =>
    (g1Cands (s.drop (k - j))).findSome? (fun p =>
      (sepChapColon p.2).bind (fun q =>
        (tl q.2).map (fun v => (p.1, q.1, v)))))

def matchA (s : List Char) : Option (List Char × List Char × List Char) :=
  matchWith tailLazy s

def matchB (s : List Char) : Option (List Char × List Char × List Char) :=
  matchWith tailGreedy s

def matchBookGroup (s : List Char) : Option (List Char) :=
  let k := (s.takeWhile pyIsSpace).length
  (List.range (k + 1)).findSome? (fun j =>
    (g1Cands (s.drop (k - j))).findSome? (fun p =>
      (sepChapColon p.2).map (fun _ => p.1)))

-- ## _sanitize_ref and slug_from_reference

def sanitize_ref (ref : String) : String :=
  if ref = "" then ref
  else
    let t := pyStrip (collapseWs ref.data)
    match matchA t with
    | some (g1, ch, vs) =>
      ⟨(normalize_book ⟨g1⟩).data ++ ' ' :: ch ++ ':' :: (normalize_verses ⟨vs⟩).data⟩
    | none => ⟨stripPunct t⟩

-- `re.sub(r"[^a-z0-9]+", "-", ref.lower()).strip("-") or "post"`
def genericSlug (r : String) : String :=
  let base := stripBy (fun c => c == '-')
    (collapseRuns (fun c => !lowerAlnum c) '-' false (r.data.map pyToLower))
  if base.isEmpty then "post" else ⟨base⟩

def slug_from_reference (ref : String) : String :=
  let r := sanitize_ref ref
  match matchB r.data with
  | some (g1, ch, vs) =>
    ⟨((g1.map pyToLower).filter (fun c => !(c == ' '))) ++ ch ++
      '_' :: ((vs.filter (fun c => !(c == ' '))).map (fun c => if c == ',' then '_' else c))⟩
  | none => genericSlug r

-- ## fetch_kjv_text
--
-- The HTTP round trip of fetch_kjv_text (requests.get on bible-api.com,
-- raise_for_status, r.json()) is abstracted as a function from the sanitized
-- reference to a `KjvFetch`: `err` models any raised exception on the way
-- (caught by the bare `except Exception`), `ok vs` models a decoded JSON
-- body whose "verses" field is the list `vs` of (verse number, text) pairs.

inductive KjvFetch where
  | err : KjvFetch
  | ok : List (Nat × String) → KjvFetch

-- f"{num} {txt}" with txt = re.sub(r"\s+", " ", text.rstrip()).strip()
def verseLine (p : Nat × String) : String :=
  toString p.1 ++ " " ++ ⟨pyStrip (collapseWs (stripRightBy pyIsSpace p.2.data))⟩

def bookOf (r : String) : String :=
  match matchBookGroup r.data with
  | some g1 => ⟨pyStrip g1⟩
  | none => ""

def deuteroNote (r : String) : String :=
  "(Text for " ++ r ++ " is from a deuterocanonical book not present in KJV. " ++
  "Please see the official readings page for the full text.)"

def noVersesNote (r : String) : String := "(No verses returned for " ++ r ++ ".)"

def unableNote (r : String) : String :=
  "(Unable to retrieve text for " ++ r ++ " at this time.)"

def fetch_kjv_text (fetch : String → KjvFetch) (ref_str : String) : String :=
  if ref_str = "" then ""
  else
    let r := sanitize_ref ref_str
    let book := bookOf r
    if book ∈ DEUTERO then deuteroNote r
    else
      match fetch r with
      | .err => unableNote r
      | .ok verses =>
        if verses.isEmpty then noVersesNote r
        else ⟨pyStrip (String.intercalate "\n" (verses.map verseLine)).data⟩

-- ## The source fallback chain of main()
--
-- Each feed iteration of main's loop either raises (caught and logged:
-- `err`), finds no entry for today (`continue`: `noEntry`), or runs
-- extract_refs_from_entry_generic, producing the two optional reference
-- strings (`extracted`).  The trailing USCCB HTML fallback either raises
-- (`err`) or produces two optional references (`extracted`).

inductive FeedOutcome where
  | err : FeedOutcome
  | noEntry : FeedOutcome
  | extracted : Option String → Option String → FeedOutcome

inductive HtmlOutcome where
  | err : HtmlOutcome
  | extracted : Option String → Option String → HtmlOutcome

-- Python truthiness of a `str or None` value: None and "" are falsy.
def truthy : Option String → Bool
  | none => false
  | some s => !(s == "")

-- `_sanitize_ref(fr) if fr else None`
def refineRef : Option String → Option String
  | none => none
  | some s => if s == "" then none else some (sanitize_ref s)

structure ChainState where
  first : Option String
  gospel : Option String
  src : Option String
deriving DecidableEq, Repr

-- One iteration of the `for src in (...)` loop; `st.src = some _` marks that
-- a previous iteration hit `break`.
def feedStep (name : String) (o : FeedOutcome) (st : ChainState) : ChainState :=
  match st.src with
  | some _ => st
  | none =>
    match o with
    | .err => st
    | .noEntry => st
    | .extracted fr gr =>
      if truthy fr || truthy gr then ⟨refineRef fr, refineRef gr, some name⟩ else st

def chainErrMsg : String :=
  "No readings found via Catholic.org RSS, USCCB RSS, or USCCB HTML fallback."

-- `if not (first_ref or gospel_ref):` try the USCCB HTML page
def htmlStep (oh : HtmlOutcome) (st : ChainState) : ChainState :=
  if truthy st.first || truthy st.gospel then st
  else
    match oh with
    | .err => st
    | .extracted fr gr =>
      if truthy fr || truthy gr then ⟨refineRef fr, refineRef gr, some "usccb_html"⟩ else st

-- `if not (first_ref or gospel_ref): raise RuntimeError(...)`
def finalize (st : ChainState) : Except String ChainState :=
  if truthy st.first || truthy st.gospel then Except.ok st
  else Except.error chainErrMsg

def main_chain (o1 o2 o3 : FeedOutcome) (oh : HtmlOutcome) : Except String ChainState :=
  finalize (htmlStep oh
    (feedStep "feedburner" o3 (feedStep "usccb_rss" o2 (feedStep "catholic.org" o1 ⟨none, none, none⟩))))

-- a feed source that "fails to yield a reference" (raises, has no entry for
-- today, or extracts only falsy references)
def feedFails : FeedOutcome → Bool
  | .err => true
  | .noEntry => true
  | .extracted fr gr => !(truthy fr || truthy gr)

def htmlFails : HtmlOutcome → Bool
  | .err => true
  | .extracted fr gr => !(truthy fr || truthy gr)

-- In the script, the references held by an `extracted` outcome are the
-- return values of the extract functions, which are `_sanitize_ref` outputs
-- (or None); for such strings truthiness survives the second `_sanitize_ref`
-- that main applies.  `wfFeed`/`wfHtml` state exactly that stability.
def wfFeed (o : FeedOutcome) : Prop :=
  ∀ fr gr, o = .extracted fr gr →
    (truthy fr || truthy gr) = true →
    (truthy (refineRef fr) || truthy (refineRef gr)) = true

def wfHtml (o : HtmlOutcome) : Prop :=
  ∀ fr gr, o = .extracted fr gr →
    (truthy fr || truthy gr) = true →
    (truthy (refineRef fr) || truthy (refineRef gr)) = true

-- ## Auxiliary predicates used by the theorems

-- characters a normalized verse string may contain
def verseChar (c : Char) : Bool := isDig c || c == ',' || c == '-'

-- characters a slug may contain
def slugChar (c : Char) : Bool := lowerAlnum c || c == '-' || c == '_'

-- no two adjacent characters both satisfy p
def noTwo (p : Char → Bool) : List Char → Bool
  | [] => true
  | c :: t =>
    (match t with
     | [] => true
     | d :: _ => !(p c && p d)) && noTwo p t

-- every whitespace character is ' ' and is followed by a non-whitespace
-- character (so `re.sub(r"\s+", " ", ·)` leaves the list unchanged)
def singleSpaced : List Char → Bool
  | [] => true
  | c :: t =>
    (if pyIsSpace c then
      c == ' ' &&
      (match t with
       | [] => true
       | d :: _ => !pyIsSpace d)
     else true) && singleSpaced t

-- a string unchanged by `.strip()` followed by `re.sub(r"\s+", " ", ·)`
def spaceNormal (b : String) : Bool :=
  (pyStrip b.data == b.data) && (collapseWs b.data == b.data)

-- shape of a BOOK_MAP key the reference regex parses back exactly:
-- either letters/spaces starting and ending with a letter, single-spaced,
-- or a digit 1-3, one space, and a nonempty run of letters.
def goodKeyPlain (k : List Char) : Bool :=
  match k with
  | [] => false
  | c :: _ =>
    isAlphaC c && k.all letterSpace &&
    (match k.getLast? with
     | some d => isAlphaC d
     | none => false) &&
    singleSpaced k

def goodKey (k : List Char) : Bool :=
  match k with
  | d :: w :: kl =>
    if digit13 d && (w == ' ') then !kl.isEmpty && kl.all isAlphaC
    else goodKeyPlain k
  | _ => goodKeyPlain k

end Daily

namespace Daily

-- ## Helper lemmas

theorem feedStep_of_fails (name : String) (o : FeedOutcome) (st : ChainState)
    (h : feedFails o = true) : feedStep name o st = st := by
  cases o with
  | err => cases st with | mk f g s => cases s <;> rfl
  | noEntry => cases st with | mk f g s => cases s <;> rfl
  | extracted fr gr =>
    simp only [feedFails, Bool.not_eq_true'] at h
    cases st with | mk f g s =>
      cases s <;> simp [feedStep, h]

theorem feedStep_of_done (name : String) (o : FeedOutcome) (st : ChainState)
    (n : String) (h : st.src = some n) : feedStep name o st = st := by
  cases st with | mk f g s =>
    simp only at h
    subst h
    cases o <;> rfl

theorem truthy_of_refine (o : Option String) (h : truthy (refineRef o) = true) :
    truthy o = true := by
  cases o with
  | none => simp [refineRef, truthy] at h
  | some s =>
    by_cases hs : s == ""
    · simp [refineRef, hs, truthy] at h
    · simp [truthy, hs]

theorem feedStep_hit (name : String) (fr gr : Option String)
    (ht : (truthy fr || truthy gr) = true) :
    feedStep name (.extracted fr gr) ⟨none, none, none⟩ =
      ⟨refineRef fr, refineRef gr, some name⟩ := by
  simp only [feedStep]
  rw [if_pos ht]

theorem htmlStep_skip (oh : HtmlOutcome) (st : ChainState)
    (h : (truthy st.first || truthy st.gospel) = true) : htmlStep oh st = st := by
  unfold htmlStep
  rw [if_pos h]

theorem htmlStep_err_keep (st : ChainState) : htmlStep .err st = st := by
  unfold htmlStep
  split <;> rfl

theorem htmlStep_hit (fr gr : Option String)
    (ht : (truthy fr || truthy gr) = true) :
    htmlStep (.extracted fr gr) ⟨none, none, none⟩ =
      ⟨refineRef fr, refineRef gr, some "usccb_html"⟩ := by
  unfold htmlStep
  rw [if_neg (by decide)]
  simp [ht]

theorem htmlStep_miss (fr gr : Option String) (st : ChainState)
    (h : (truthy fr || truthy gr) = false) : htmlStep (.extracted fr gr) st = st := by
  unfold htmlStep
  split
  · rfl
  · simp [h]

theorem finalize_ok (st : ChainState)
    (h : (truthy st.first || truthy st.gospel) = true) : finalize st = .ok st := by
  unfold finalize
  rw [if_pos h]

theorem finalize_fails (st : ChainState)
    (h : ¬(truthy st.first || truthy st.gospel) = true) :
    finalize st = .error chainErrMsg := by
  unfold finalize
  rw [if_neg h]

theorem chain_ok1 (o2 o3 : FeedOutcome) (oh : HtmlOutcome) (fr gr : Option String)
    (ht : (truthy fr || truthy gr) = true)
    (hw : (truthy (refineRef fr) || truthy (refineRef gr)) = true) :
    main_chain (.extracted fr gr) o2 o3 oh =
      .ok ⟨refineRef fr, refineRef gr, some "catholic.org"⟩ := by
  simp only [main_chain]
  rw [feedStep_hit _ _ _ ht, feedStep_of_done _ _ _ _ rfl, feedStep_of_done _ _ _ _ rfl,
    htmlStep_skip _ _ hw, finalize_ok _ hw]

theorem chain_ok2 (o1 o3 : FeedOutcome) (oh : HtmlOutcome) (fr gr : Option String)
    (f1 : feedFails o1 = true)
    (ht : (truthy fr || truthy gr) = true)
    (hw : (truthy (refineRef fr) || truthy (refineRef gr)) = true) :
    main_chain o1 (.extracted fr gr) o3 oh =
      .ok ⟨refineRef fr, refineRef gr, some "usccb_rss"⟩ := by
  simp only [main_chain]
  rw [feedStep_of_fails _ _ _ f1, feedStep_hit _ _ _ ht, feedStep_of_done _ _ _ _ rfl,
    htmlStep_skip _ _ hw, finalize_ok _ hw]

theorem chain_ok3 (o1 o2 : FeedOutcome) (oh : HtmlOutcome) (fr gr : Option String)
    (f1 : feedFails o1 = true) (f2 : feedFails o2 = true)
    (ht : (truthy fr || truthy gr) = true)
    (hw : (truthy (refineRef fr) || truthy (refineRef gr)) = true) :
    main_chain o1 o2 (.extracted fr gr) oh =
      .ok ⟨refineRef fr, refineRef gr, some "feedburner"⟩ := by
  simp only [main_chain]
  rw [feedStep_of_fails _ _ _ f1, feedStep_of_fails _ _ _ f2, feedStep_hit _ _ _ ht,
    htmlStep_skip _ _ hw, finalize_ok _ hw]

theorem chain_ok_html (o1 o2 o3 : FeedOutcome) (fr gr : Option String)
    (f1 : feedFails o1 = true) (f2 : feedFails o2 = true) (f3 : feedFails o3 = true)
    (ht : (truthy fr || truthy gr) = true)
    (hw : (truthy (refineRef fr) || truthy (refineRef gr)) = true) :
    main_chain o1 o2 o3 (.extracted fr gr) =
      .ok ⟨refineRef fr, refineRef gr, some "usccb_html"⟩ := by
  simp only [main_chain]
  rw [feedStep_of_fails _ _ _ f1, feedStep_of_fails _ _ _ f2, feedStep_of_fails _ _ _ f3,
    htmlStep_hit _ _ ht, finalize_ok _ hw]

theorem finalize_error (st : ChainState) (msg : String)
    (h : finalize st = .error msg) : msg = chainErrMsg := by
  unfold finalize at h
  by_cases hc : (truthy st.first || truthy st.gospel) = true
  · rw [if_pos hc] at h
    exact absurd h (by simp)
  · rw [if_neg hc] at h
    injection h with h2
    exact h2.symm

theorem feed_not_fails (o : FeedOutcome) (h : ¬feedFails o = true) :
    ∃ fr gr, o = .extracted fr gr ∧ (truthy fr || truthy gr) = true := by
  cases o with
  | err => simp [feedFails] at h
  | noEntry => simp [feedFails] at h
  | extracted fr gr =>
    refine ⟨fr, gr, rfl, ?_⟩
    cases hor : (truthy fr || truthy gr) with
    | false => exact absurd (by simp [feedFails, hor]) h
    | true => rfl

theorem html_not_fails (o : HtmlOutcome) (h : ¬htmlFails o = true) :
    ∃ fr gr, o = .extracted fr gr ∧ (truthy fr || truthy gr) = true := by
  cases o with
  | err => simp [htmlFails] at h
  | extracted fr gr =>
    refine ⟨fr, gr, rfl, ?_⟩
    cases hor : (truthy fr || truthy gr) with
    | false => exact absurd (by simp [htmlFails, hor]) h
    | true => rfl

end Daily

namespace Daily

-- ## List lemmas: takeWhile/dropWhile, strips, run collapsing

theorem takeWhile_app (p : Char → Bool) (xs ys : List Char)
    (h : ∀ a ∈ xs, p a = true) :
    (xs ++ ys).takeWhile p = xs ++ ys.takeWhile p := by
  induction xs with
  | nil => simp
  | cons c t ih =>
    have hc : p c = true := h c (by simp)
    simp only [List.cons_append, List.takeWhile_cons_of_pos hc]
    rw [ih (fun a ha => h a (by simp [ha]))]

theorem dropWhile_app (p : Char → Bool) (xs ys : List Char)
    (h : ∀ a ∈ xs, p a = true) :
    (xs ++ ys).dropWhile p = ys.dropWhile p := by
  induction xs with
  | nil => simp
  | cons c t ih =>
    have hc : p c = true := h c (by simp)
    simp only [List.cons_append, List.dropWhile_cons_of_pos hc]
    exact ih (fun a ha => h a (by simp [ha]))

theorem head?_dropWhile (p : Char → Bool) (l : List Char) (c : Char)
    (h : (l.dropWhile p).head? = some c) : p c = false := by
  induction l with
  | nil => simp at h
  | cons a t ih =>
    by_cases ha : p a = true
    · rw [List.dropWhile_cons_of_pos ha] at h
      exact ih h
    · rw [List.dropWhile_cons_of_neg ha] at h
      simp only [List.head?_cons, Option.some.injEq] at h
      rw [← h]
      exact Bool.not_eq_true _ ▸ ha

theorem dropWhile_id (p : Char → Bool) (l : List Char)
    (h : ∀ c, l.head? = some c → p c = false) : l.dropWhile p = l := by
  cases l with
  | nil => rfl
  | cons a t => exact List.dropWhile_cons_of_neg (by simp [h a rfl])

theorem mem_dropWhile (p : Char → Bool) (l : List Char) (c : Char)
    (h : c ∈ l.dropWhile p) : c ∈ l :=
  (List.dropWhile_sublist p).mem h

theorem stripRightBy_cons (p : Char → Bool) (a : Char) (t : List Char) :
    stripRightBy p (a :: t) =
      if ((stripRightBy p t).isEmpty && p a) = true then []
      else a :: stripRightBy p t := rfl

theorem mem_stripRightBy (p : Char → Bool) (l : List Char) (c : Char)
    (h : c ∈ stripRightBy p l) : c ∈ l := by
  induction l with
  | nil => exact absurd h (List.not_mem_nil c)
  | cons a t ih =>
    rw [stripRightBy_cons] at h
    by_cases hcond : ((stripRightBy p t).isEmpty && p a) = true
    · rw [if_pos hcond] at h
      simp at h
    · rw [if_neg hcond] at h
      rcases List.mem_cons.mp h with h | h
      · simp [h]
      · exact List.mem_cons_of_mem _ (ih h)

theorem stripRightBy_id (p : Char → Bool) (l : List Char)
    (h : ∀ c, l.getLast? = some c → p c = false) : stripRightBy p l = l := by
  induction l with
  | nil => rfl
  | cons a t ih =>
    cases t with
    | nil =>
      have ha : p a = false := h a rfl
      rw [stripRightBy_cons]
      simp [stripRightBy, ha]
    | cons b t2 =>
      have ht : stripRightBy p (b :: t2) = b :: t2 :=
        ih (fun c hc => h c (by rw [List.getLast?_cons_cons]; exact hc))
      rw [stripRightBy_cons, ht]
      simp

theorem getLast?_stripRightBy (p : Char → Bool) (l : List Char) (c : Char)
    (h : (stripRightBy p l).getLast? = some c) : p c = false := by
  induction l with
  | nil => simp [stripRightBy] at h
  | cons a t ih =>
    rw [stripRightBy_cons] at h
    by_cases hcond : ((stripRightBy p t).isEmpty && p a) = true
    · rw [if_pos hcond] at h
      simp at h
    · rw [if_neg hcond] at h
      cases hr : stripRightBy p t with
      | nil =>
        rw [hr] at h
        simp only [List.getLast?_singleton, Option.some.injEq] at h
        have hpa : p a = false := by
          cases hpa2 : p a with
          | false => rfl
          | true => exact absurd (by rw [hr]; simp [hpa2]) hcond
        rw [← h]
        exact hpa
      | cons b t2 =>
        rw [hr, List.getLast?_cons_cons] at h
        exact ih (by rw [hr]; exact h)

theorem head?_stripRightBy (p : Char → Bool) (l : List Char) :
    (stripRightBy p l).head? = none ∨ (stripRightBy p l).head? = l.head? := by
  cases l with
  | nil => left; rfl
  | cons a t =>
    rw [stripRightBy_cons]
    by_cases hcond : ((stripRightBy p t).isEmpty && p a) = true
    · rw [if_pos hcond]
      left
      rfl
    · rw [if_neg hcond]
      right
      rfl

theorem noTwo_head (q : Char → Bool) (c : Char) (t : List Char)
    (h : noTwo q (c :: t) = true) : noTwo q t = true := by
  simp only [noTwo, Bool.and_eq_true] at h
  exact h.2

theorem noTwo_pair (q : Char → Bool) (c d : Char) (t : List Char)
    (h : noTwo q (c :: d :: t) = true) (hc : q c = true) : q d = false := by
  simp only [noTwo, Bool.and_eq_true] at h
  have h1 := h.1
  cases hd : q d with
  | false => rfl
  | true => simp [hc, hd] at h1

theorem noTwo_dropWhile (q p : Char → Bool) (l : List Char)
    (h : noTwo q l = true) : noTwo q (l.dropWhile p) = true := by
  induction l with
  | nil => simpa using h
  | cons a t ih =>
    by_cases hpa : p a = true
    · rw [List.dropWhile_cons_of_pos hpa]
      exact ih (noTwo_head _ _ _ h)
    · rw [List.dropWhile_cons_of_neg hpa]
      exact h

theorem noTwo_stripRightBy (q p : Char → Bool) (l : List Char)
    (h : noTwo q l = true) : noTwo q (stripRightBy p l) = true := by
  induction l with
  | nil => exact h
  | cons a t ih =>
    rw [stripRightBy_cons]
    by_cases hcond : ((stripRightBy p t).isEmpty && p a) = true
    · rw [if_pos hcond]
      rfl
    · rw [if_neg hcond]
      have h2 := ih (noTwo_head q a t h)
      simp only [noTwo, Bool.and_eq_true]
      refine ⟨?_, h2⟩
      cases hs : stripRightBy p t with
      | nil => rfl
      | cons b t2 =>
        rcases head?_stripRightBy p t with hh | hh
        · rw [hs] at hh
          simp at hh
        · rw [hs] at hh
          cases t with
          | nil => simp at hh
          | cons d t3 =>
            simp only [List.head?_cons, Option.some.injEq] at hh
            subst hh
            cases hqa : q a with
            | false => simp [hqa]
            | true => simp [noTwo_pair q a b t3 h hqa]

theorem mem_collapseRuns (bad : Char → Bool) (rep : Char) (l : List Char)
    (b : Bool) (c : Char) (h : c ∈ collapseRuns bad rep b l) :
    c = rep ∨ (c ∈ l ∧ bad c = false) := by
  induction l generalizing b with
  | nil => cases b <;> simp [collapseRuns] at h
  | cons a t ih =>
    have main : ∀ hmem : c ∈ (if bad a then rep :: collapseRuns bad rep true t
        else a :: collapseRuns bad rep false t) ∨
        c ∈ (if bad a then collapseRuns bad rep true t
        else a :: collapseRuns bad rep false t),
        c = rep ∨ (c ∈ a :: t ∧ bad c = false) := by
      intro hmem
      by_cases hb : bad a = true
      · rw [if_pos hb, if_pos hb] at hmem
        rcases hmem with hm | hm
        · rcases List.mem_cons.mp hm with hm | hm
          · exact Or.inl hm
          · rcases ih true hm with hm | ⟨hm1, hm2⟩
            · exact Or.inl hm
            · exact Or.inr ⟨List.mem_cons_of_mem _ hm1, hm2⟩
        · rcases ih true hm with hm | ⟨hm1, hm2⟩
          · exact Or.inl hm
          · exact Or.inr ⟨List.mem_cons_of_mem _ hm1, hm2⟩
      · rw [if_neg hb, if_neg hb] at hmem
        have hm : c ∈ a :: collapseRuns bad rep false t := by
          rcases hmem with hm | hm <;> exact hm
        rcases List.mem_cons.mp hm with hm | hm
        · subst hm
          exact Or.inr ⟨by simp, Bool.not_eq_true _ ▸ hb⟩
        · rcases ih false hm with hm | ⟨hm1, hm2⟩
          · exact Or.inl hm
          · exact Or.inr ⟨List.mem_cons_of_mem _ hm1, hm2⟩
    cases b with
    | true => exact main (Or.inr (by simpa [collapseRuns] using h))
    | false => exact main (Or.inl (by simpa [collapseRuns] using h))

theorem collapseRuns_head_true (bad : Char → Bool) (rep : Char) (l : List Char) :
    ∀ c, (collapseRuns bad rep true l).head? = some c → bad c = false := by
  induction l with
  | nil => intro c h; simp [collapseRuns] at h
  | cons a t ih =>
    intro c h
    simp only [collapseRuns] at h
    by_cases hb : bad a = true
    · rw [if_pos hb] at h
      exact ih c h
    · rw [if_neg hb] at h
      simp only [List.head?_cons, Option.some.injEq] at h
      rw [← h]
      exact Bool.not_eq_true _ ▸ hb

theorem noTwo_collapseRuns (bad : Char → Bool) (rep : Char) (l : List Char) :
    ∀ b, noTwo bad (collapseRuns bad rep b l) = true := by
  induction l with
  | nil => intro b; cases b <;> rfl
  | cons a t ih =>
    intro b
    have htrue : noTwo bad (collapseRuns bad rep true (a :: t)) = true := by
      simp only [collapseRuns]
      by_cases hb : bad a = true
      · rw [if_pos hb]
        exact ih true
      · rw [if_neg hb]
        simp only [noTwo, Bool.and_eq_true]
        refine ⟨?_, ih false⟩
        cases hs : collapseRuns bad rep false t with
        | nil => rfl
        | cons d t2 => simp [hb]
    cases b with
    | true => exact htrue
    | false =>
      simp only [collapseRuns]
      by_cases hb : bad a = true
      · rw [if_pos hb]
        simp only [noTwo, Bool.and_eq_true]
        refine ⟨?_, ih true⟩
        cases hs : collapseRuns bad rep true t with
        | nil => rfl
        | cons d t2 =>
          have hd : bad d = false :=
            collapseRuns_head_true bad rep t d (by rw [hs]; rfl)
          simp [hd]
      · rw [if_neg hb]
        simp only [noTwo, Bool.and_eq_true]
        refine ⟨?_, ih false⟩
        cases hs : collapseRuns bad rep false t with
        | nil => rfl
        | cons d t2 => simp [hb]

theorem collapseRuns_id (bad : Char → Bool) (rep : Char) (l : List Char)
    (hno : noTwo bad l = true) (hall : ∀ c ∈ l, bad c = true → c = rep) :
    collapseRuns bad rep false l = l := by
  induction l with
  | nil => rfl
  | cons a t ih =>
    simp only [collapseRuns]
    by_cases hb : bad a = true
    · rw [if_pos hb]
      have ha : a = rep := hall a (by simp) hb
      cases t with
      | nil => simp [collapseRuns, ha]
      | cons d t2 =>
        have hd : bad d = false := noTwo_pair bad a d t2 hno hb
        have ih2 : collapseRuns bad rep false (d :: t2) = d :: t2 :=
          ih (noTwo_head _ _ _ hno)
            (fun c hc hbc => hall c (List.mem_cons_of_mem _ hc) hbc)
        simp only [collapseRuns, if_neg (by simp [hd] : ¬bad d = true)] at ih2
        have h3 : collapseRuns bad rep false t2 = t2 := by
          injection ih2
        simp only [collapseRuns, if_neg (by simp [hd] : ¬bad d = true), h3, ha]
    · rw [if_neg hb]
      rw [ih (noTwo_head _ _ _ hno)
        (fun c hc hbc => hall c (List.mem_cons_of_mem _ hc) hbc)]

theorem mem_stripBy (p : Char → Bool) (l : List Char) (c : Char)
    (h : c ∈ stripBy p l) : c ∈ l :=
  mem_dropWhile p l c (mem_stripRightBy p (l.dropWhile p) c h)

theorem head?_stripBy (p : Char → Bool) (l : List Char) (c : Char)
    (h : (stripBy p l).head? = some c) : p c = false := by
  unfold stripBy at h
  rcases head?_stripRightBy p (l.dropWhile p) with hh | hh
  · rw [hh] at h
    cases h
  · rw [hh] at h
    exact head?_dropWhile p l c h

theorem getLast?_stripBy (p : Char → Bool) (l : List Char) (c : Char)
    (h : (stripBy p l).getLast? = some c) : p c = false :=
  getLast?_stripRightBy p (l.dropWhile p) c h

theorem noTwo_stripBy (q p : Char → Bool) (l : List Char)
    (h : noTwo q l = true) : noTwo q (stripBy p l) = true :=
  noTwo_stripRightBy q p (l.dropWhile p) (noTwo_dropWhile q p l h)

theorem stripBy_id (p : Char → Bool) (l : List Char)
    (hh : ∀ c, l.head? = some c → p c = false)
    (hl : ∀ c, l.getLast? = some c → p c = false) : stripBy p l = l := by
  unfold stripBy
  rw [dropWhile_id p l hh, stripRightBy_id p l hl]

theorem all_stripBy (q p : Char → Bool) (l : List Char)
    (h : ∀ c ∈ l, q c = true) : ∀ c ∈ stripBy p l, q c = true :=
  fun c hc => h c (mem_stripBy p l c hc)

-- ## singleSpaced and whitespace collapsing

theorem singleSpaced_tail (c : Char) (t : List Char)
    (h : singleSpaced (c :: t) = true) : singleSpaced t = true := by
  simp only [singleSpaced, Bool.and_eq_true] at h
  exact h.2

theorem singleSpaced_noTwo (l : List Char) (h : singleSpaced l = true) :
    noTwo pyIsSpace l = true := by
  induction l with
  | nil => rfl
  | cons c t ih =>
    simp only [singleSpaced, Bool.and_eq_true] at h
    simp only [noTwo, Bool.and_eq_true]
    refine ⟨?_, ih h.2⟩
    cases t with
    | nil => rfl
    | cons d t2 =>
      by_cases hc : pyIsSpace c = true
      · have h1 := h.1
        rw [if_pos hc] at h1
        simp only [Bool.and_eq_true] at h1
        have hd : pyIsSpace d = false := by simpa using h1.2
        simp [hd]
      · simp [Bool.not_eq_true _ ▸ hc]

theorem singleSpaced_mem (l : List Char) (h : singleSpaced l = true) (c : Char)
    (hc : c ∈ l) (hw : pyIsSpace c = true) : c = ' ' := by
  induction l with
  | nil => cases hc
  | cons a t ih =>
    simp only [singleSpaced, Bool.and_eq_true] at h
    rcases List.mem_cons.mp hc with hc | hc
    · subst hc
      have h1 := h.1
      rw [if_pos hw] at h1
      simp only [Bool.and_eq_true] at h1
      simpa using h1.1
    · exact ih h.2 hc

theorem collapseWs_id (l : List Char) (h : singleSpaced l = true) :
    collapseWs l = l :=
  collapseRuns_id pyIsSpace ' ' l (singleSpaced_noTwo l h)
    (fun c hc hw => singleSpaced_mem l h c hc hw)

theorem allNonWs_singleSpaced (l : List Char)
    (h : ∀ c ∈ l, pyIsSpace c = false) : singleSpaced l = true := by
  induction l with
  | nil => rfl
  | cons a t ih =>
    simp only [singleSpaced, Bool.and_eq_true]
    refine ⟨?_, ih (fun c hc => h c (List.mem_cons_of_mem _ hc))⟩
    rw [if_neg (by simp [h a (by simp)])]

theorem singleSpaced_append (xs ys : List Char)
    (hx : singleSpaced xs = true) (hy : singleSpaced ys = true)
    (hb : ∀ c, xs.getLast? = some c → pyIsSpace c = true →
      ∀ d, ys.head? = some d → pyIsSpace d = false) :
    singleSpaced (xs ++ ys) = true := by
  induction xs with
  | nil => simpa using hy
  | cons a t ih =>
    have ht : singleSpaced (t ++ ys) = true := by
      cases t with
      | nil => simpa using hy
      | cons b t2 =>
        exact ih (singleSpaced_tail _ _ hx)
          (fun c hc hw d hd => hb c (by rw [List.getLast?_cons_cons]; exact hc) hw d hd)
    simp only [List.cons_append, singleSpaced, Bool.and_eq_true]
    refine ⟨?_, ht⟩
    by_cases ha : pyIsSpace a = true
    · rw [if_pos ha]
      simp only [Bool.and_eq_true]
      constructor
      · have : a = ' ' := singleSpaced_mem _ hx a (by simp) ha
        simp [this]
      · cases t with
        | nil =>
          cases ys with
          | nil => rfl
          | cons d t3 =>
            have hd : pyIsSpace d = false := hb a rfl ha d rfl
            simpa using hd
        | cons b t2 =>
          simp only [singleSpaced, Bool.and_eq_true] at hx
          have h1 := hx.1
          rw [if_pos ha] at h1
          simp only [Bool.and_eq_true] at h1
          exact h1.2
    · rw [if_neg ha]

theorem mem_collapseWs_ws (l : List Char) (c : Char) (h : c ∈ collapseWs l)
    (hw : pyIsSpace c = true) : c = ' ' := by
  rcases mem_collapseRuns pyIsSpace ' ' l false c h with h | ⟨_, h2⟩
  · exact h
  · exact absurd hw (by simp [h2])

-- ## normalize_verses invariants

theorem verseChar_of (c : Char) (h1 : classVerse c = true)
    (h2 : pyIsSpace c = false) : verseChar c = true := by
  simp only [classVerse, Bool.or_eq_true] at h1
  rcases h1 with ((h | h) | h) | h
  · simp [verseChar, h]
  · simp [verseChar, h]
  · simp [verseChar, h]
  · have hc : c = ' ' := by simpa using h
    subst hc
    exact absurd h2 (by decide)

theorem normalizeVerses_chars (l : List Char) (c : Char)
    (h : c ∈ normalizeVersesL l) : verseChar c = true := by
  simp only [normalizeVersesL] at h
  have h5 := mem_stripBy _ _ _ h
  rcases mem_collapseRuns _ _ _ _ _ h5 with h6 | ⟨h6, _⟩
  · rw [h6]
    decide
  · have h7 := List.mem_filter.mp h6
    have h8 := List.mem_filter.mp h7.1
    exact verseChar_of c h8.2 (by simpa using h7.2)

theorem normalizeVerses_noTwoComma (l : List Char) :
    noTwo (fun c => c == ',') (normalizeVersesL l) = true := by
  simp only [normalizeVersesL]
  exact noTwo_stripBy _ _ _ (noTwo_collapseRuns _ _ _ false)

theorem normalizeVerses_head (l : List Char) :
    (normalizeVersesL l).head? ≠ some ',' := by
  intro h
  have := head?_stripBy (fun c => c == ',') _ ',' h
  simp at this

theorem normalizeVerses_last (l : List Char) :
    (normalizeVersesL l).getLast? ≠ some ',' := by
  intro h
  have := getLast?_stripBy (fun c => c == ',') _ ',' h
  simp at this

-- ## Shape of successful regex matches

theorem take_of_takeWhile (p : Char → Bool) (t : List Char) (i : Nat)
    (hi : i ≤ (t.takeWhile p).length) :
    t.take i = (t.takeWhile p).take i := by
  have hsplit := List.takeWhile_append_dropWhile p t
  conv =>
    left
    rw [← hsplit]
  rw [List.take_append_of_le_length hi]

theorem takeWhile_append_drop_len (p : Char → Bool) (l : List Char) :
    l.takeWhile p ++ l.drop (l.takeWhile p).length = l := by
  set n := (l.takeWhile p).length with hn
  have h1 : l.take n = l.takeWhile p := by
    rw [take_of_takeWhile p l n (by rw [hn])]
    exact List.take_length _
  rw [← h1, List.take_append_drop]

theorem lettersCands_mem (t g r : List Char) (h : (g, r) ∈ lettersCands t) :
    t = g ++ r ∧ g ≠ [] ∧ ∀ c ∈ g, letterSpace c = true := by
  simp only [lettersCands, List.mem_map, List.mem_range] at h
  obtain ⟨j, hj, heq⟩ := h
  obtain ⟨h1, h2⟩ := Prod.mk.injEq .. ▸ heq
  have hlen : (t.takeWhile letterSpace).length ≤ t.length :=
    (List.takeWhile_sublist _).length_le
  refine ⟨by rw [← h1, ← h2, List.take_append_drop], ?_, ?_⟩
  · rw [← h1]
    intro hnil
    have := congrArg List.length hnil
    simp only [List.length_take, List.length_nil] at this
    omega
  · intro c hc
    rw [← h1, take_of_takeWhile letterSpace t _ (by omega)] at hc
    exact List.mem_takeWhile_imp ((List.take_sublist _ _).mem hc)

theorem wsOptCands_mem (t g r : List Char) (h : (g, r) ∈ wsOptCands t) :
    t = g ++ r ∧
    ∃ wp ls, g = wp ++ ls ∧
      (wp = [] ∨ ∃ w, wp = [w] ∧ pyIsSpace w = true) ∧
      ls ≠ [] ∧ (∀ c ∈ ls, letterSpace c = true) := by
  cases t with
  | nil => simp [wsOptCands, lettersCands] at h
  | cons w t2 =>
    simp only [wsOptCands, List.mem_append] at h
    rcases h with h | h
    · by_cases hw : pyIsSpace w = true
      · rw [if_pos hw] at h
        simp only [List.mem_map] at h
        obtain ⟨p, hp, heq⟩ := h
        obtain ⟨hg, hr⟩ := Prod.mk.injEq .. ▸ heq
        obtain ⟨hsplit, hne, hall⟩ := lettersCands_mem t2 p.1 p.2 hp
        refine ⟨?_, [w], p.1, ?_, Or.inr ⟨w, rfl, hw⟩, hne, hall⟩
        · rw [← hg, ← hr, hsplit]
          simp
        · rw [← hg]
          simp
      · rw [if_neg hw] at h
        simp at h
    · obtain ⟨hsplit, hne, hall⟩ := lettersCands_mem (w :: t2) g r h
      exact ⟨hsplit, [], g, by simp, Or.inl rfl, hne, hall⟩

theorem g1Cands_mem (t g r : List Char) (h : (g, r) ∈ g1Cands t) :
    t = g ++ r ∧
    ∃ dp wp ls, g = dp ++ wp ++ ls ∧
      (dp = [] ∨ ∃ d, dp = [d] ∧ digit13 d = true) ∧
      (wp = [] ∨ ∃ w, wp = [w] ∧ pyIsSpace w = true) ∧
      ls ≠ [] ∧ (∀ c ∈ ls, letterSpace c = true) := by
  cases t with
  | nil => simp [g1Cands] at h
  | cons d t1 =>
    simp only [g1Cands, List.mem_append] at h
    rcases h with h | h
    · by_cases hd : digit13 d = true
      · rw [if_pos hd] at h
        simp only [List.mem_map] at h
        obtain ⟨p, hp, heq⟩ := h
        obtain ⟨hg, hr⟩ := Prod.mk.injEq .. ▸ heq
        obtain ⟨hsplit, wp, ls, hdec, hwp, hne, hall⟩ := wsOptCands_mem t1 p.1 p.2 hp
        refine ⟨?_, [d], wp, ls, ?_, Or.inr ⟨d, rfl, hd⟩, hwp, hne, hall⟩
        · rw [← hg, ← hr, hsplit]
          simp
        · rw [← hg, hdec]
          simp
      · rw [if_neg hd] at h
        simp at h
    · obtain ⟨hsplit, wp, ls, hdec, hwp, hne, hall⟩ := wsOptCands_mem (d :: t1) g r h
      exact ⟨hsplit, [], wp, ls, by simpa using hdec, Or.inl rfl, hwp, hne, hall⟩

theorem sepChapColon_some (r ch rest : List Char)
    (h : sepChapColon r = some (ch, rest)) :
    ∃ w, r = w ++ ch ++ ':' :: rest ∧ w ≠ [] ∧ (∀ c ∈ w, pyIsSpace c = true) ∧
      ch ≠ [] ∧ (∀ c ∈ ch, isDig c = true) := by
  simp only [sepChapColon] at h
  by_cases hw : (r.takeWhile pyIsSpace).isEmpty = true
  · rw [if_pos hw] at h
    cases h
  · rw [if_neg hw] at h
    by_cases hd : ((r.dropWhile pyIsSpace).takeWhile isDig).isEmpty = true
    · rw [if_pos hd] at h
      cases h
    · rw [if_neg hd] at h
      cases hm : (r.dropWhile pyIsSpace).drop
          ((r.dropWhile pyIsSpace).takeWhile isDig).length with
      | nil =>
        rw [hm] at h
        cases h
      | cons c0 rest0 =>
        rw [hm] at h
        simp only [colonSplit] at h
        by_cases hc0 : c0 = ':'
        · rw [if_pos hc0] at h
          simp only [Option.map_some', Option.some.injEq, Prod.mk.injEq] at h
          obtain ⟨hch, hrest⟩ := h
          refine ⟨r.takeWhile pyIsSpace, ?_, by simpa using hw,
            fun c hc => List.mem_takeWhile_imp hc, ?_, ?_⟩
          · have e1 : r.takeWhile pyIsSpace ++ r.dropWhile pyIsSpace = r :=
              List.takeWhile_append_dropWhile pyIsSpace r
            have e2 := takeWhile_append_drop_len isDig (r.dropWhile pyIsSpace)
            conv =>
              left
              rw [← e1, ← e2]
            rw [hm, hch, hrest, hc0]
            simp
          · rw [← hch]
            simpa using hd
          · rw [← hch]
            exact fun c hc => List.mem_takeWhile_imp hc
        · rw [if_neg hc0] at h
          cases h

theorem tailLazy_some (r v : List Char) (h : tailLazy r = some v) :
    v ≠ [] ∧ ∃ b, r = v ++ b := by
  induction r generalizing v with
  | nil => cases h
  | cons c rest ih =>
    simp only [tailLazy] at h
    by_cases hn : c = '\n'
    · rw [if_pos hn] at h
      cases h
    · rw [if_neg hn] at h
      by_cases hall : rest.all pyIsSpace = true
      · rw [if_pos hall] at h
        obtain rfl : [c] = v := Option.some.inj h
        exact ⟨by simp, rest, rfl⟩
      · rw [if_neg hall] at h
        cases ht : tailLazy rest with
        | none =>
          rw [ht] at h
          cases h
        | some v2 =>
          rw [ht] at h
          simp only [Option.map_some', Option.some.injEq] at h
          obtain ⟨_, b, hb⟩ := ih v2 ht
          refine ⟨by rw [← h]; simp, b, ?_⟩
          rw [← h, hb]
          simp

theorem tailGreedy_some (r v : List Char) (h : tailGreedy r = some v) :
    v ≠ [] ∧ (∀ c ∈ v, classVerse c = true) := by
  simp only [tailGreedy] at h
  by_cases h1 : (r.takeWhile classVerse).isEmpty = true
  · rw [if_pos h1] at h
    cases h
  · rw [if_neg h1] at h
    by_cases h2 : (r.drop (r.takeWhile classVerse).length).all pyIsSpace = true
    · rw [if_pos h2] at h
      obtain rfl : r.takeWhile classVerse = v := Option.some.inj h
      exact ⟨by simpa using h1, fun c hc => List.mem_takeWhile_imp hc⟩
    · rw [if_neg h2] at h
      cases h

theorem matchWith_some (tl : List Char → Option (List Char)) (s g1 ch v : List Char)
    (h : matchWith tl s = some (g1, ch, v)) :
    ∃ i rest0,
      s.drop i = g1 ++ ((s.drop i).drop g1.length) ∧
      (∃ dp wp ls, g1 = dp ++ wp ++ ls ∧
        (dp = [] ∨ ∃ d, dp = [d] ∧ digit13 d = true) ∧
        (wp = [] ∨ ∃ w, wp = [w] ∧ pyIsSpace w = true) ∧
        ls ≠ [] ∧ (∀ c ∈ ls, letterSpace c = true)) ∧
      (∃ w, (s.drop i).drop g1.length = w ++ ch ++ ':' :: rest0 ∧ w ≠ [] ∧
        (∀ c ∈ w, pyIsSpace c = true)) ∧
      ch ≠ [] ∧ (∀ c ∈ ch, isDig c = true) ∧
      tl rest0 = some v := by
  simp only [matchWith] at h
  obtain ⟨j, _, hsome⟩ := List.exists_of_findSome?_eq_some h
  obtain ⟨p, hp, hsome2⟩ := List.exists_of_findSome?_eq_some hsome
  cases hsep : sepChapColon p.2 with
  | none =>
    rw [hsep] at hsome2
    cases hsome2
  | some q =>
    rw [hsep] at hsome2
    simp only [Option.some_bind] at hsome2
    cases htl : tl q.2 with
    | none =>
      rw [htl] at hsome2
      cases hsome2
    | some v2 =>
      rw [htl] at hsome2
      simp only [Option.map_some', Option.some.injEq, Prod.mk.injEq] at hsome2
      obtain ⟨hg1, hch, hv⟩ := hsome2
      obtain ⟨hsplit, shape⟩ :=
        g1Cands_mem (s.drop ((s.takeWhile pyIsSpace).length - j)) p.1 p.2 hp
      obtain ⟨w, hwsplit, hwne, hwall, hchne, hchall⟩ :=
        sepChapColon_some p.2 q.1 q.2 hsep
      have hr : (s.drop ((s.takeWhile pyIsSpace).length - j)).drop g1.length = p.2 := by
        rw [hsplit, ← hg1]
        simp
      refine ⟨(s.takeWhile pyIsSpace).length - j, q.2, ?_, by rw [← hg1]; exact shape,
        ⟨w, ?_, hwne, hwall⟩, by rw [← hch]; exact hchne,
        by rw [← hch]; exact hchall, by rw [hv] at htl; exact htl⟩
      · rw [hr, hsplit, ← hg1]
      · rw [hr, hwsplit, hch]

theorem matchWith_has_ws (tl : List Char → Option (List Char)) (s : List Char)
    (x : List Char × List Char × List Char) (h : matchWith tl s = some x) :
    ∃ c ∈ s, pyIsSpace c = true := by
  obtain ⟨g1, ch, v⟩ := x
  obtain ⟨i, rest0, hdec, _, ⟨w, hwsplit, hwne, hwall⟩, _⟩ :=
    matchWith_some tl s g1 ch v h
  cases w with
  | nil => exact absurd rfl hwne
  | cons c w2 =>
    refine ⟨c, ?_, hwall c (by simp)⟩
    have h1 : c ∈ (s.drop i).drop g1.length := by
      rw [hwsplit]
      simp
    exact (List.drop_sublist _ _).mem ((List.drop_sublist _ _).mem h1)

theorem matchWith_none_of_noWs (tl : List Char → Option (List Char))
    (s : List Char) (h : ∀ c ∈ s, pyIsSpace c = false) : matchWith tl s = none := by
  cases hm : matchWith tl s with
  | none => rfl
  | some x =>
    obtain ⟨c, hc, hw⟩ := matchWith_has_ws tl s x hm
    rw [h c hc] at hw
    cases hw

-- ## Character-class facts

theorem isDig_not_ws (c : Char) (h : isDig c = true) : pyIsSpace c = false := by
  simp only [isDig, Bool.and_eq_true, decide_eq_true_eq] at h
  cases hw : pyIsSpace c with
  | false => rfl
  | true =>
    exfalso
    simp only [pyIsSpace, Bool.or_eq_true, Bool.and_eq_true, decide_eq_true_eq,
      beq_iff_eq] at hw
    omega

theorem verseChar_not_ws (c : Char) (h : verseChar c = true) : pyIsSpace c = false := by
  simp only [verseChar, Bool.or_eq_true] at h
  rcases h with (h | h) | h
  · exact isDig_not_ws c h
  · have hc : c = ',' := by simpa using h
    subst hc
    decide
  · have hc : c = '-' := by simpa using h
    subst hc
    decide

theorem isAlphaC_not_ws (c : Char) (h : isAlphaC c = true) : pyIsSpace c = false := by
  simp only [isAlphaC, Bool.or_eq_true, Bool.and_eq_true, decide_eq_true_eq] at h
  cases hw : pyIsSpace c with
  | false => rfl
  | true =>
    exfalso
    simp only [pyIsSpace, Bool.or_eq_true, Bool.and_eq_true, decide_eq_true_eq,
      beq_iff_eq] at hw
    omega

theorem digit13_isDig (c : Char) (h : digit13 c = true) : isDig c = true := by
  simp only [digit13, Bool.or_eq_true, beq_iff_eq] at h
  rcases h with (h | h) | h <;> subst h <;> decide

-- ## Whitespace characters surviving _sanitize_ref are plain spaces

theorem lookup_mem {k v : String} {l : List (String × String)}
    (h : List.lookup k l = some v) : (k, v) ∈ l := by
  induction l with
  | nil => cases h
  | cons p t ih =>
    obtain ⟨a, b⟩ := p
    simp only [List.lookup] at h
    cases hka : k == a with
    | true =>
      rw [hka] at h
      have hk : k = a := by simpa using hka
      have hv : b = v := by simpa using h
      subst hk
      subst hv
      simp
    | false =>
      rw [hka] at h
      exact List.mem_cons_of_mem _ (ih h)

theorem book_map_values_ws :
    ∀ p ∈ BOOK_MAP, ∀ c ∈ p.2.data, pyIsSpace c = true → c = ' ' := by
  have hb : BOOK_MAP.all
      (fun p => p.2.data.all (fun c => !pyIsSpace c || c == ' ')) = true := by
    decide
  intro p hp c hc hw
  have h1 := (List.all_eq_true.mp (List.all_eq_true.mp hb p hp) c hc)
  rcases Bool.or_eq_true_iff.mp h1 with h2 | h2
  · rw [hw] at h2
    cases h2
  · simpa using h2

theorem normalize_book_ws (s : String) (c : Char)
    (h : c ∈ (normalize_book s).data) (hw : pyIsSpace c = true) : c = ' ' := by
  simp only [normalize_book] at h
  cases hl : List.lookup (⟨collapseWs (pyStrip s.data)⟩ : String) BOOK_MAP with
  | none =>
    rw [hl] at h
    exact mem_collapseWs_ws _ c h hw
  | some canon =>
    rw [hl] at h
    exact book_map_values_ws _ (lookup_mem hl) c h hw

theorem sanitize_ws (x : String) (c : Char) (h : c ∈ (sanitize_ref x).data)
    (hw : pyIsSpace c = true) : c = ' ' := by
  by_cases hx : x = ""
  · subst hx
    cases h
  · unfold sanitize_ref at h
    rw [if_neg hx] at h
    cases hm : matchA (pyStrip (collapseWs x.data)) with
    | none =>
      simp only [hm] at h
      have h2 := mem_stripBy _ _ _ h
      have h3 := mem_stripRightBy _ _ _ h2
      have h4 := mem_dropWhile _ _ _ h3
      exact mem_collapseWs_ws _ c h4 hw
    | some trip =>
      obtain ⟨g1, ch, vs⟩ := trip
      simp only [hm] at h
      obtain ⟨_, _, _, _, _, _, hchall, _⟩ := matchWith_some tailLazy _ g1 ch vs hm
      rcases List.mem_append.mp h with h | h
      · rcases List.mem_append.mp h with h | h
        · exact normalize_book_ws _ c h hw
        · rcases List.mem_cons.mp h with h | h
          · exact h
          · rw [isDig_not_ws c (hchall c h)] at hw
            cases hw
      · rcases List.mem_cons.mp h with h | h
        · subst h
          cases hw
        · rw [verseChar_not_ws c (normalizeVerses_chars _ c h)] at hw
          cases hw

-- ## pyToLower facts

theorem toNat_ofNat_small (n : Nat) (h : n < 55296) : (Char.ofNat n).toNat = n := by
  unfold Char.ofNat
  split
  · rfl
  · rename_i hh
    exact absurd (Or.inl h) hh

theorem pyToLower_isAlpha (c : Char) (h : isAlphaC c = true) :
    lowerAlnum (pyToLower c) = true := by
  simp only [isAlphaC, Bool.or_eq_true, Bool.and_eq_true, decide_eq_true_eq] at h
  unfold pyToLower
  rcases h with ⟨h1, h2⟩ | ⟨h1, h2⟩
  · rw [if_pos (by simp only [Bool.and_eq_true, decide_eq_true_eq]; omega)]
    have ht : (Char.ofNat (c.toNat + 32)).toNat = c.toNat + 32 :=
      toNat_ofNat_small _ (by omega)
    simp only [lowerAlnum, isDig, Bool.or_eq_true, Bool.and_eq_true,
      decide_eq_true_eq, ht]
    omega
  · rw [if_neg (by simp only [Bool.and_eq_true, decide_eq_true_eq]; omega)]
    simp only [lowerAlnum, isDig, Bool.or_eq_true, Bool.and_eq_true, decide_eq_true_eq]
    omega

theorem pyToLower_id_of_low (c : Char) (h : c.toNat < 65) : pyToLower c = c := by
  unfold pyToLower
  rw [if_neg (by simp only [Bool.and_eq_true, decide_eq_true_eq]; omega)]

theorem pyToLower_isDig (c : Char) (h : isDig c = true) : pyToLower c = c := by
  simp only [isDig, Bool.and_eq_true, decide_eq_true_eq] at h
  exact pyToLower_id_of_low c (by omega)

theorem lowerAlnum_slugChar (c : Char) (h : lowerAlnum c = true) :
    slugChar c = true := by
  simp [slugChar, h]

theorem isDig_lowerAlnum (c : Char) (h : isDig c = true) : lowerAlnum c = true := by
  simp [lowerAlnum, h]

theorem str_ne_empty (l : List Char) (h : l ≠ []) : (⟨l⟩ : String) ≠ "" := by
  intro hc
  exact h (congrArg String.data hc)

-- ## Characterization of the generic slug fallback

theorem genericSlug_cases (r : String) :
    genericSlug r = "post" ∨
    ((genericSlug r).data ≠ [] ∧
     (∀ c ∈ (genericSlug r).data, (lowerAlnum c || c == '-') = true) ∧
     noTwo (fun c => !lowerAlnum c) (genericSlug r).data = true ∧
     (∀ c, (genericSlug r).data.head? = some c → lowerAlnum c = true) ∧
     (∀ c, (genericSlug r).data.getLast? = some c → lowerAlnum c = true)) := by
  simp only [genericSlug]
  by_cases hb : (stripBy (fun c => c == '-')
      (collapseRuns (fun c => !lowerAlnum c) '-' false (r.data.map pyToLower))).isEmpty = true
  · left
    rw [if_pos hb]
  · right
    rw [if_neg hb]
    have hchars : ∀ c ∈ stripBy (fun c => c == '-')
        (collapseRuns (fun c => !lowerAlnum c) '-' false (r.data.map pyToLower)),
        (lowerAlnum c || c == '-') = true := by
      intro c hc
      rcases mem_collapseRuns _ _ _ _ _ (mem_stripBy _ _ _ hc) with h | ⟨_, h2⟩
      · simp [h]
      · have h2b : (!lowerAlnum c) = false := h2
        have h2c : lowerAlnum c = true := by simpa using h2b
        simp [h2c]
    refine ⟨by simpa using hb, hchars, ?_, ?_, ?_⟩
    · exact noTwo_stripBy _ _ _ (noTwo_collapseRuns _ _ _ false)
    · intro c hc
      have h1 : (c == '-') = false := head?_stripBy (fun c => c == '-') _ c hc
      have h2 := hchars c (List.mem_of_mem_head? hc)
      rcases Bool.or_eq_true_iff.mp h2 with h3 | h3
      · exact h3
      · rw [h3] at h1
        cases h1
    · intro c hc
      have h1 : (c == '-') = false := getLast?_stripBy (fun c => c == '-') _ c hc
      have h2 := hchars c (List.mem_of_mem_getLast? hc)
      rcases Bool.or_eq_true_iff.mp h2 with h3 | h3
      · exact h3
      · rw [h3] at h1
        cases h1

end Daily

namespace Daily

-- ## Claim theorems: worked examples, sanitize fallback, fetch, chain

/-- C8: the spec's worked examples hold: sanitizing "Lk 14:12-14" yields
"Luke 14:12-14" with slug "luke14_12-14", and the slug of "Dt 4:1,5-9" is
"deuteronomy4_1_5-9". -/
theorem c8_worked_examples :
    sanitize_ref "Lk 14:12-14" = "Luke 14:12-14" ∧
    slug_from_reference "Lk 14:12-14" = "luke14_12-14" ∧
    slug_from_reference "Dt 4:1,5-9" = "deuteronomy4_1_5-9" := by
  refine ⟨?_, ?_, ?_⟩ <;> rfl

/-- C5 fails on the code: for the non-matching input "a," (whose trimmed
original is "a," itself), `_sanitize_ref` also strips the trailing comma and
returns "a", not the trimmed original unchanged. -/
theorem c5_counterexample :
    matchA (pyStrip (collapseWs ("a,".data))) = none ∧
    pyStrip ("a,".data) = "a,".data ∧
    sanitize_ref "a," = "a" ∧ ("a" : String) ≠ "a," := by
  refine ⟨by rfl, by rfl, by rfl, by decide⟩

/-- C5 amended: on an input that does not match the reference shape,
`_sanitize_ref` raises no exception and returns the input with whitespace
runs collapsed to single spaces, then surrounding whitespace and surrounding
space/comma/semicolon/colon/hyphen characters removed. -/
theorem c5_amended (ref : String) (h : ref ≠ "")
    (hm : matchA (pyStrip (collapseWs ref.data)) = none) :
    sanitize_ref ref = ⟨stripPunct (pyStrip (collapseWs ref.data))⟩ := by
  unfold sanitize_ref
  rw [if_neg h]
  simp only [hm]

/-- witness for the amended C5 at the concrete non-matching input "b ;". -/
theorem c5_amended_witness :
    sanitize_ref "b ;" = ⟨stripPunct (pyStrip (collapseWs ("b ;".data)))⟩ :=
  c5_amended "b ;" (by decide) (by rfl)

/-- C2 fails on the code: slug derivation is not idempotent, since a derived
slug like "luke14_12" re-slugifies to "luke14-12" (the underscore is not
alphanumeric, so the generic fallback turns it into a hyphen). -/
theorem c2_counterexample :
    slug_from_reference (slug_from_reference "Lk 14:12") ≠
      slug_from_reference "Lk 14:12" := by
  decide

/-- C6: fetching scripture text never propagates an error: a reference whose
book is deuterocanonical yields the substitute note without fetching, a
fetch/parse failure yields the unavailable-text note, and an empty verse
list yields the no-verses note. -/
theorem c6_fetch_text_error_handling (fetch : String → KjvFetch) (ref : String)
    (h : ref ≠ "") :
    (bookOf (sanitize_ref ref) ∈ DEUTERO →
      fetch_kjv_text fetch ref = deuteroNote (sanitize_ref ref)) ∧
    (bookOf (sanitize_ref ref) ∉ DEUTERO →
      (fetch (sanitize_ref ref) = .err →
        fetch_kjv_text fetch ref = unableNote (sanitize_ref ref)) ∧
      (fetch (sanitize_ref ref) = .ok [] →
        fetch_kjv_text fetch ref = noVersesNote (sanitize_ref ref))) := by
  unfold fetch_kjv_text
  rw [if_neg h]
  constructor
  · intro hd
    rw [if_pos hd]
  · intro hd
    rw [if_neg hd]
    constructor
    · intro he
      rw [he]
    · intro he
      rw [he]
      rfl

/-- witness for C6: a deuterocanonical reference gets the substitute note. -/
theorem c6_witness :
    fetch_kjv_text (fun _ => KjvFetch.err) "Tob 1:3" = deuteroNote "Tobit 1:3" :=
  (c6_fetch_text_error_handling (fun _ => KjvFetch.err) "Tob 1:3" (by decide)).1
    (by decide)

/-- C3: if the first two feed sources fail (exception, no entry, or no
truthy reference) and the third yields a reference that stays non-empty
through sanitization, the chain stops there and returns that source's
sanitized references with identifier "feedburner". -/
theorem c3_fallback_uses_first_yielding_source
    (o1 o2 : FeedOutcome) (fr gr : Option String) (oh : HtmlOutcome)
    (h1 : feedFails o1 = true) (h2 : feedFails o2 = true)
    (h3 : (truthy (refineRef fr) || truthy (refineRef gr)) = true) :
    main_chain o1 o2 (.extracted fr gr) oh =
      .ok ⟨refineRef fr, refineRef gr, some "feedburner"⟩ := by
  have t3 : (truthy fr || truthy gr) = true := by
    simp only [Bool.or_eq_true] at h3 ⊢
    rcases h3 with h | h
    · exact Or.inl (truthy_of_refine _ h)
    · exact Or.inr (truthy_of_refine _ h)
  exact chain_ok3 o1 o2 oh fr gr h1 h2 t3 h3

/-- witness for C3 at concrete outcomes: two dead feeds, then feedburner
yields "Lk 5:1". -/
theorem c3_witness :
    main_chain .err .noEntry (.extracted (some "Lk 5:1") none) .err =
      .ok ⟨refineRef (some "Lk 5:1"), refineRef none, some "feedburner"⟩ :=
  c3_fallback_uses_first_yielding_source .err .noEntry (some "Lk 5:1") none .err
    (by rfl) (by rfl) (by decide)

/-- C4: per-source failures are absorbed (an outcome constructor, never a
propagated exception), and the chain raises its terminal error exactly when
all three feeds and the HTML fallback fail to yield a reference; the error
carries only the fixed message, no partial references. -/
theorem c4_terminal_error_iff_all_sources_fail
    (o1 o2 o3 : FeedOutcome) (oh : HtmlOutcome)
    (w1 : wfFeed o1) (w2 : wfFeed o2) (w3 : wfFeed o3) (wh : wfHtml oh) :
    ((∃ msg, main_chain o1 o2 o3 oh = .error msg) ↔
      (feedFails o1 = true ∧ feedFails o2 = true ∧ feedFails o3 = true ∧
        htmlFails oh = true)) ∧
    (∀ msg, main_chain o1 o2 o3 oh = .error msg → msg = chainErrMsg) := by
  constructor
  · constructor
    · rintro ⟨msg, hm⟩
      by_cases f1 : feedFails o1 = true
      · by_cases f2 : feedFails o2 = true
        · by_cases f3 : feedFails o3 = true
          · by_cases fh : htmlFails oh = true
            · exact ⟨f1, f2, f3, fh⟩
            · obtain ⟨fr, gr, ho, ht⟩ := html_not_fails oh fh
              subst ho
              rw [chain_ok_html o1 o2 o3 fr gr f1 f2 f3 ht (wh fr gr rfl ht)] at hm
              exact absurd hm (by simp)
          · obtain ⟨fr, gr, ho, ht⟩ := feed_not_fails o3 f3
            subst ho
            rw [chain_ok3 o1 o2 oh fr gr f1 f2 ht (w3 fr gr rfl ht)] at hm
            exact absurd hm (by simp)
        · obtain ⟨fr, gr, ho, ht⟩ := feed_not_fails o2 f2
          subst ho
          rw [chain_ok2 o1 o3 oh fr gr f1 ht (w2 fr gr rfl ht)] at hm
          exact absurd hm (by simp)
      · obtain ⟨fr, gr, ho, ht⟩ := feed_not_fails o1 f1
        subst ho
        rw [chain_ok1 o2 o3 oh fr gr ht (w1 fr gr rfl ht)] at hm
        exact absurd hm (by simp)
    · rintro ⟨f1, f2, f3, fh⟩
      refine ⟨chainErrMsg, ?_⟩
      simp only [main_chain]
      rw [feedStep_of_fails _ _ _ f1, feedStep_of_fails _ _ _ f2,
        feedStep_of_fails _ _ _ f3]
      cases oh with
      | err =>
        rw [htmlStep_err_keep]
        exact finalize_fails _ (by decide)
      | extracted fr gr =>
        have hfr : (truthy fr || truthy gr) = false := by
          simpa [htmlFails] using fh
        rw [htmlStep_miss _ _ _ hfr]
        exact finalize_fails _ (by decide)
  · intro msg hm
    exact finalize_error _ _ hm

/-- C10: for every input, the normalized verse string has no two consecutive
commas and neither begins nor ends with a comma. -/
theorem c10_no_stray_commas (s : String) :
    noTwo (fun c => c == ',') (normalize_verses s).data = true ∧
    (normalize_verses s).data.head? ≠ some ',' ∧
    (normalize_verses s).data.getLast? ≠ some ',' :=
  ⟨normalizeVerses_noTwoComma s.data, normalizeVerses_head s.data,
    normalizeVerses_last s.data⟩

/-- witness for C10 at a concrete input with doubled and dangling commas. -/
theorem c10_witness :
    noTwo (fun c => c == ',') (normalize_verses ",1,,2,").data = true ∧
    ((normalize_verses ",1,,2,").data.head? = some ',' → False) ∧
    ((normalize_verses ",1,,2,").data.getLast? = some ',' → False) :=
  ⟨(c10_no_stray_commas ",1,,2,").1,
    fun h => (c10_no_stray_commas ",1,,2,").2.1 h,
    fun h => (c10_no_stray_commas ",1,,2,").2.2 h⟩

/-- C7: a space-normal book component either resolves through BOOK_MAP to
its canonical name or passes through unchanged when unmapped, and every
normalized verse string consists only of digits, commas, and hyphens (all
whitespace removed). -/
theorem c7_book_and_verse_invariants :
    (∀ b : String, spaceNormal b = true →
      (∃ canon, BOOK_MAP.lookup b = some canon ∧ normalize_book b = canon) ∨
      (BOOK_MAP.lookup b = none ∧ normalize_book b = b)) ∧
    (∀ vs : String, ∀ c ∈ (normalize_verses vs).data, verseChar c = true) := by
  constructor
  · intro b hb
    simp only [spaceNormal, Bool.and_eq_true, beq_iff_eq] at hb
    unfold normalize_book
    have ha : (⟨collapseWs (pyStrip b.data)⟩ : String) = b := by
      rw [hb.1, hb.2]
    rw [ha]
    cases hl : BOOK_MAP.lookup b with
    | none =>
      right
      refine ⟨rfl, ?_⟩
      show (BOOK_MAP.lookup b).getD b = b
      rw [hl]
      rfl
    | some canon =>
      left
      refine ⟨canon, rfl, ?_⟩
      show (BOOK_MAP.lookup b).getD b = canon
      rw [hl]
      rfl
  · intro vs c hc
    exact normalizeVerses_chars vs.data c hc

/-- witness for C7: "Lk" is space-normal and resolves to "Luke"; a raw verse
expression with whitespace, an en dash and a letter suffix normalizes into
the digits/commas/hyphens alphabet. -/
theorem c7_witness :
    spaceNormal "Lk" = true ∧
    ((∃ canon, BOOK_MAP.lookup "Lk" = some canon ∧ normalize_book "Lk" = canon) ∨
      (BOOK_MAP.lookup "Lk" = none ∧ normalize_book "Lk" = "Lk")) ∧
    (∀ c ∈ (normalize_verses " 1, 5–9b ").data, verseChar c = true) :=
  ⟨by decide, c7_book_and_verse_invariants.1 "Lk" (by decide),
    c7_book_and_verse_invariants.2 " 1, 5–9b "⟩

theorem slug_props (s : String) :
    slug_from_reference s ≠ "" ∧
    (∀ c ∈ (slug_from_reference s).data, slugChar c = true) ∧
    (matchB (sanitize_ref s).data = none →
      (stripBy (fun c => c == '-') (collapseRuns (fun c => !lowerAlnum c) '-' false
        ((sanitize_ref s).data.map pyToLower))).isEmpty = true →
      slug_from_reference s = "post") := by
  cases hm : matchB (sanitize_ref s).data with
  | none =>
    have hs : slug_from_reference s = genericSlug (sanitize_ref s) := by
      simp only [slug_from_reference, hm]
    rw [hs]
    rcases genericSlug_cases (sanitize_ref s) with hg | ⟨hne, hchars, _, _, _⟩
    · rw [hg]
      refine ⟨by decide, by decide, fun _ _ => rfl⟩
    · refine ⟨?_, ?_, ?_⟩
      · intro hq
        exact hne (congrArg String.data hq)
      · intro c hc
        rcases Bool.or_eq_true_iff.mp (hchars c hc) with h | h
        · exact lowerAlnum_slugChar c h
        · have hcd : c = '-' := by simpa using h
          subst hcd
          decide
      · intro _ hbase
        simp only [genericSlug]
        rw [if_pos hbase]
  | some trip =>
    obtain ⟨g1, ch, vs⟩ := trip
    have hs : slug_from_reference s =
        ⟨((g1.map pyToLower).filter (fun c => !(c == ' '))) ++ ch ++
          '_' :: ((vs.filter (fun c => !(c == ' '))).map
            (fun c => if c == ',' then '_' else c))⟩ := by
      simp only [slug_from_reference, hm]
    obtain ⟨i, rest0, hdec, ⟨dp, wp, ls, hg1, hdp, hwp, hlsne, hlsall⟩,
      hwsep, hchne, hchall, htl⟩ := matchWith_some tailGreedy _ g1 ch vs hm
    obtain ⟨hvne, hvall⟩ := tailGreedy_some rest0 vs htl
    have hg1mem : ∀ c ∈ g1, c ∈ (sanitize_ref s).data := by
      intro c hc
      have h1 : c ∈ (sanitize_ref s).data.drop i := by
        rw [hdec]
        exact List.mem_append_left _ hc
      exact (List.drop_sublist _ _).mem h1
    have hps : pyToLower ' ' = ' ' := by decide
    rw [hs]
    refine ⟨?_, ?_, ?_⟩
    · apply str_ne_empty
      intro hq
      rcases List.append_eq_nil.mp hq with ⟨_, h2⟩
      cases h2
    · intro c hc
      have hc2 : c ∈ ((g1.map pyToLower).filter (fun c => !(c == ' ')) ++ ch) ++
          '_' :: ((vs.filter (fun c => !(c == ' '))).map
            (fun c => if c == ',' then '_' else c)) := hc
      rcases List.mem_append.mp hc2 with hc3 | hc3
      · rcases List.mem_append.mp hc3 with hc4 | hc4
        · obtain ⟨hcm, hcf⟩ := List.mem_filter.mp hc4
          obtain ⟨d, hd, hdl⟩ := List.mem_map.mp hcm
          have hdg1 : d ∈ g1 := hd
          have hcfb : (!(c == ' ')) = true := hcf
          rw [hg1] at hd
          rcases List.mem_append.mp hd with hd5 | hd5
          · rcases List.mem_append.mp hd5 with hd6 | hd6
            · rcases hdp with hdp | ⟨d0, hd0, hd0dig⟩
              · rw [hdp] at hd6
                cases hd6
              · rw [hd0] at hd6
                have hde : d = d0 := by simpa using hd6
                subst hde
                have hdig := digit13_isDig _ hd0dig
                rw [← hdl, pyToLower_isDig _ hdig]
                exact lowerAlnum_slugChar _ (isDig_lowerAlnum _ hdig)
            · rcases hwp with hwp | ⟨w0, hw0, hw0ws⟩
              · rw [hwp] at hd6
                cases hd6
              · rw [hw0] at hd6
                have hde : d = w0 := by simpa using hd6
                subst hde
                have hsp : d = ' ' := sanitize_ws s d (hg1mem d hdg1) hw0ws
                exfalso
                rw [hsp, hps] at hdl
                rw [← hdl] at hcfb
                simp at hcfb
          · have hls := hlsall d hd5
            rcases Bool.or_eq_true_iff.mp hls with hla | hsp
            · rw [← hdl]
              exact lowerAlnum_slugChar _ (pyToLower_isAlpha d hla)
            · have hde : d = ' ' := by simpa using hsp
              exfalso
              rw [hde, hps] at hdl
              rw [← hdl] at hcfb
              simp at hcfb
        · exact lowerAlnum_slugChar _ (isDig_lowerAlnum _ (hchall c hc4))
      · rcases List.mem_cons.mp hc3 with hc4 | hc4
        · subst hc4
          decide
        · obtain ⟨d, hdmem, hdeq⟩ := List.mem_map.mp hc4
          obtain ⟨hdv, hdf⟩ := List.mem_filter.mp hdmem
          have hdfb : (!(d == ' ')) = true := hdf
          by_cases hdc : (d == ',') = true
          · rw [if_pos hdc] at hdeq
            rw [← hdeq]
            decide
          · rw [if_neg hdc] at hdeq
            have hcv := hvall d hdv
            simp only [classVerse, Bool.or_eq_true] at hcv
            rcases hcv with ((h | h) | h) | h
            · rw [← hdeq]
              exact lowerAlnum_slugChar _ (isDig_lowerAlnum _ h)
            · exact absurd h hdc
            · rw [← hdeq]
              simp [slugChar, h]
            · exfalso
              rw [h] at hdfb
              cases hdfb
    · intro hnone _
      cases hnone

/-- C9: for every input string, slug_from_reference returns a non-empty
string of lowercase letters, digits, hyphens, and underscores; when the
match fails and the generic slugification comes up empty, the default
"post" is returned. -/
theorem c9_slug_safety (s : String) :
    slug_from_reference s ≠ "" ∧
    (∀ c ∈ (slug_from_reference s).data, slugChar c = true) ∧
    (matchB (sanitize_ref s).data = none →
      (stripBy (fun c => c == '-') (collapseRuns (fun c => !lowerAlnum c) '-' false
        ((sanitize_ref s).data.map pyToLower))).isEmpty = true →
      slug_from_reference s = "post") :=
  slug_props s

/-- witness for C9 at an input whose generic slugification is empty. -/
theorem c9_witness :
    slug_from_reference ";;" ≠ "" ∧ slug_from_reference ";;" = "post" := by
  have h := c9_slug_safety ";;"
  exact ⟨h.1, h.2.2 (by rfl) (by rfl)⟩

/-- witness for C4: with every source failing, the chain returns the fixed
terminal error. -/
theorem c4_witness :
    (∃ msg, main_chain .err .err .err .err = .error msg) ∧
    main_chain .err .err .err .err = .error chainErrMsg := by
  have h := c4_terminal_error_iff_all_sources_fail .err .err .err .err
    (fun fr gr hh => nomatch hh) (fun fr gr hh => nomatch hh)
    (fun fr gr hh => nomatch hh) (fun fr gr hh => nomatch hh)
  obtain ⟨msg, hm⟩ := h.1.mpr ⟨rfl, rfl, rfl, rfl⟩
  refine ⟨⟨msg, hm⟩, ?_⟩
  rw [← h.2 msg hm]
  exact hm

-- ## Slug fixed points (for the amended C2)

theorem lowerAlnum_not_ws (c : Char) (h : lowerAlnum c = true) :
    pyIsSpace c = false := by
  simp only [lowerAlnum, isDig, Bool.or_eq_true, Bool.and_eq_true,
    decide_eq_true_eq] at h
  cases hw : pyIsSpace c with
  | false => rfl
  | true =>
    exfalso
    simp only [pyIsSpace, Bool.or_eq_true, Bool.and_eq_true, decide_eq_true_eq,
      beq_iff_eq] at hw
    omega

theorem slugChar_not_ws (c : Char) (h : slugChar c = true) : pyIsSpace c = false := by
  simp only [slugChar, Bool.or_eq_true] at h
  rcases h with (h | h) | h
  · exact lowerAlnum_not_ws c h
  · have hc : c = '-' := by simpa using h
    subst hc
    decide
  · have hc : c = '_' := by simpa using h
    subst hc
    decide

theorem pyToLower_id_of_gen (c : Char) (h : (lowerAlnum c || c == '-') = true) :
    pyToLower c = c := by
  rcases Bool.or_eq_true_iff.mp h with h | h
  · simp only [lowerAlnum, isDig, Bool.or_eq_true, Bool.and_eq_true,
      decide_eq_true_eq] at h
    unfold pyToLower
    rw [if_neg (by simp only [Bool.and_eq_true, decide_eq_true_eq]; omega)]
  · have hc : c = '-' := by simpa using h
    subst hc
    decide

theorem lowerAlnum_not_punct (c : Char) (h : lowerAlnum c = true) :
    punctChar c = false := by
  cases hp : punctChar c with
  | false => rfl
  | true =>
    exfalso
    simp only [punctChar, Bool.or_eq_true, beq_iff_eq] at hp
    rcases hp with (((hp | hp) | hp) | hp) | hp <;> subst hp <;>
      exact absurd h (by decide)

theorem lowerAlnum_ne_hyphen (c : Char) (h : lowerAlnum c = true) :
    (c == '-') = false := by
  cases hq : c == '-' with
  | false => rfl
  | true =>
    exfalso
    have hc : c = '-' := by simpa using hq
    subst hc
    exact absurd h (by decide)

theorem map_id_of_mem (f : Char → Char) (l : List Char)
    (h : ∀ c ∈ l, f c = c) : l.map f = l := by
  induction l with
  | nil => rfl
  | cons a t ih =>
    simp only [List.map_cons, h a (by simp),
      ih (fun c hc => h c (by simp [hc]))]

theorem sanitize_of_noWs (x : String) (h : ∀ c ∈ x.data, pyIsSpace c = false) :
    sanitize_ref x = ⟨stripPunct x.data⟩ := by
  by_cases hx : x = ""
  · subst hx
    rfl
  · unfold sanitize_ref
    rw [if_neg hx]
    have hcoll : collapseWs x.data = x.data :=
      collapseWs_id _ (allNonWs_singleSpaced _ h)
    have hstrip : pyStrip x.data = x.data :=
      stripBy_id _ _ (fun c hc => h c (List.mem_of_mem_head? hc))
        (fun c hc => h c (List.mem_of_mem_getLast? hc))
    have hnone2 : matchA x.data = none :=
      matchWith_none_of_noWs _ _ h
    simp only [hcoll, hstrip, hnone2]

theorem slug_of_noWs (x : String) (h : ∀ c ∈ x.data, pyIsSpace c = false) :
    slug_from_reference x = genericSlug ⟨stripPunct x.data⟩ := by
  have hsan := sanitize_of_noWs x h
  have hB2 : matchB (stripPunct x.data) = none :=
    matchWith_none_of_noWs _ _ (fun c hc => h c (mem_stripBy _ _ _ hc))
  simp only [slug_from_reference, hsan, hB2]

theorem genericSlug_noWs (r : String) :
    ∀ c ∈ (genericSlug r).data, pyIsSpace c = false := by
  intro c hc
  rcases genericSlug_cases r with hg | ⟨_, hchars, _, _, _⟩
  · rw [hg] at hc
    have hpost : ∀ c ∈ ("post" : String).data, pyIsSpace c = false := by decide
    exact hpost c hc
  · rcases Bool.or_eq_true_iff.mp (hchars c hc) with h | h
    · exact lowerAlnum_not_ws c h
    · have hcd : c = '-' := by simpa using h
      subst hcd
      decide

theorem stripPunct_genericSlug (r : String) :
    stripPunct (genericSlug r).data = (genericSlug r).data := by
  rcases genericSlug_cases r with hg | ⟨_, _, _, hhead, hlast⟩
  · rw [hg]
    decide
  · exact stripBy_id _ _ (fun c hc => lowerAlnum_not_punct c (hhead c hc))
      (fun c hc => lowerAlnum_not_punct c (hlast c hc))

theorem genericSlug_idem (r : String) :
    genericSlug (genericSlug r) = genericSlug r := by
  rcases genericSlug_cases r with hg | ⟨hne, hchars, hnoTwo, hhead, hlast⟩
  · rw [hg]
    decide
  · generalize hgen : genericSlug r = g at hne hchars hnoTwo hhead hlast ⊢
    have hmap : g.data.map pyToLower = g.data :=
      map_id_of_mem _ _ (fun c hc => pyToLower_id_of_gen c (hchars c hc))
    have hcoll : collapseRuns (fun c => !lowerAlnum c) '-' false g.data = g.data := by
      refine collapseRuns_id _ _ _ hnoTwo ?_
      intro c hc hbad
      rcases Bool.or_eq_true_iff.mp (hchars c hc) with h | h
      · rw [h] at hbad
        cases hbad
      · simpa using h
    have hstrip : stripBy (fun c => c == '-') g.data = g.data :=
      stripBy_id _ _ (fun c hc => lowerAlnum_ne_hyphen c (hhead c hc))
        (fun c hc => lowerAlnum_ne_hyphen c (hlast c hc))
    simp only [genericSlug, hmap, hcoll, hstrip]
    rw [if_neg (by simpa using hne)]

theorem slug_of_generic (r : String) :
    slug_from_reference (genericSlug r) = genericSlug r := by
  have h1 := slug_of_noWs (genericSlug r) (genericSlug_noWs r)
  rw [h1, stripPunct_genericSlug]
  exact genericSlug_idem r

theorem slug_slug_fixed (x : String) :
    slug_from_reference (slug_from_reference (slug_from_reference x)) =
      slug_from_reference (slug_from_reference x) := by
  have hnoWs : ∀ c ∈ (slug_from_reference x).data, pyIsSpace c = false :=
    fun c hc => slugChar_not_ws c ((slug_props x).2.1 c hc)
  have h2 := slug_of_noWs (slug_from_reference x) hnoWs
  rw [h2]
  exact slug_of_generic _

-- ## Exact engine computation on well-formed "<book> <chapter>:<verses>" input

theorem isAlphaC_not_digit13 (c : Char) (h : isAlphaC c = true) :
    digit13 c = false := by
  cases hq : digit13 c with
  | false => rfl
  | true =>
    exfalso
    simp only [digit13, Bool.or_eq_true, beq_iff_eq] at hq
    rcases hq with (hq | hq) | hq <;> subst hq <;> exact absurd h (by decide)

theorem isDig_not_letterSpace (c : Char) (h : isDig c = true) :
    letterSpace c = false := by
  cases hq : letterSpace c with
  | false => rfl
  | true =>
    exfalso
    simp only [letterSpace, Bool.or_eq_true, beq_iff_eq] at hq
    rcases hq with hq | hq
    · simp only [isAlphaC, Bool.or_eq_true, Bool.and_eq_true, decide_eq_true_eq] at hq
      simp only [isDig, Bool.and_eq_true, decide_eq_true_eq] at h
      omega
    · subst hq
      exact absurd h (by decide)

theorem tailLazy_full (l : List Char) (hne : l ≠ [])
    (h : ∀ c ∈ l, pyIsSpace c = false) : tailLazy l = some l := by
  induction l with
  | nil => exact absurd rfl hne
  | cons c rest ih =>
    have hc : pyIsSpace c = false := h c (by simp)
    have hcn : c ≠ '\n' := by
      intro hq
      subst hq
      exact absurd hc (by decide)
    simp only [tailLazy]
    rw [if_neg hcn]
    cases rest with
    | nil => rfl
    | cons d rest2 =>
      have hd : pyIsSpace d = false := h d (by simp)
      have hall : ((d :: rest2).all pyIsSpace) = false := by
        simp [List.all_cons, hd]
      rw [if_neg (by simp [hall])]
      rw [ih (by simp) (fun c hc => h c (by simp [hc]))]
      rfl

theorem sepChapColon_none_head (e : Char) (rest : List Char)
    (he : pyIsSpace e = false) : sepChapColon (e :: rest) = none := by
  simp only [sepChapColon]
  rw [List.takeWhile_cons_of_neg (by simp [he])]
  rfl

theorem sepChapColon_compute (ch vs : List Char) (hch : ch ≠ [])
    (hchd : ∀ c ∈ ch, isDig c = true) :
    sepChapColon (' ' :: (ch ++ (':' :: vs))) = some (ch, vs) := by
  obtain ⟨e, ch2, rfl⟩ : ∃ e ch2, ch = e :: ch2 := by
    cases ch with
    | nil => exact absurd rfl hch
    | cons e ch2 => exact ⟨e, ch2, rfl⟩
  have he : isDig e = true := hchd e (by simp)
  have hew : pyIsSpace e = false := isDig_not_ws e he
  have h1 : ((' ' :: ((e :: ch2) ++ (':' :: vs))).takeWhile pyIsSpace) = [' '] := by
    rw [List.takeWhile_cons_of_pos (by decide)]
    rw [List.cons_append, List.takeWhile_cons_of_neg (by simp [hew])]
  have h2 : ((' ' :: ((e :: ch2) ++ (':' :: vs))).dropWhile pyIsSpace) =
      (e :: ch2) ++ (':' :: vs) := by
    rw [List.dropWhile_cons_of_pos (by decide)]
    rw [List.cons_append, List.dropWhile_cons_of_neg (by simp [hew])]
  have h3 : (((e :: ch2) ++ (':' :: vs)).takeWhile isDig) = e :: ch2 := by
    rw [takeWhile_app isDig (e :: ch2) _ hchd]
    rw [List.takeWhile_cons_of_neg (by decide)]
    simp
  have h4 : ((e :: ch2) ++ (':' :: vs)).drop (e :: ch2).length = ':' :: vs :=
    List.drop_left _ _
  simp only [sepChapColon, h1, h2, h3]
  rw [if_neg (by simp)]
  rw [if_neg (by simp)]
  rw [h4]
  simp [colonSplit]

-- the letters-run candidates on `kk ++ " " ++ ch ++ ":" ++ vs`: the greedy
-- run `kk ++ " "` fails (no whitespace before the chapter), the next longest
-- candidate `kk` succeeds.
theorem lettersPart (dec : List Char → List Char)
    (kk ch vs : List Char) (tl : List Char → Option (List Char))
    (hkne : kk ≠ []) (hkall : ∀ c ∈ kk, letterSpace c = true)
    (hch : ch ≠ []) (hchd : ∀ c ∈ ch, isDig c = true)
    (htl : tl vs = some vs) :
    (lettersCands (kk ++ (' ' :: (ch ++ (':' :: vs))))).findSome?
      (fun p => (sepChapColon p.2).bind
        (fun q => (tl q.2).map (fun v => (dec p.1, q.1, v)))) =
      some (dec kk, ch, vs) := by
  obtain ⟨e, ch2, hche⟩ : ∃ e ch2, ch = e :: ch2 := by
    cases ch with
    | nil => exact absurd rfl hch
    | cons e ch2 => exact ⟨e, ch2, rfl⟩
  have he : isDig e = true := hchd e (by rw [hche]; simp)
  have hrun : ((kk ++ (' ' :: (ch ++ (':' :: vs)))).takeWhile letterSpace) =
      kk ++ [' '] := by
    rw [takeWhile_app letterSpace kk _ hkall]
    rw [List.takeWhile_cons_of_pos (by decide)]
    rw [hche, List.cons_append,
      List.takeWhile_cons_of_neg (by simp [isDig_not_letterSpace e he])]
  obtain ⟨c0, kk2, hkk⟩ : ∃ c0 kk2, kk = c0 :: kk2 := by
    cases kk with
    | nil => exact absurd rfl hkne
    | cons c0 kk2 => exact ⟨c0, kk2, rfl⟩
  have hlen : (kk ++ [' ']).length = kk2.length + 2 := by
    rw [hkk]
    simp
  have hcand0 :
      (kk ++ (' ' :: (ch ++ (':' :: vs)))).take (kk2.length + 2 - 0) = kk ++ [' '] ∧
      (kk ++ (' ' :: (ch ++ (':' :: vs)))).drop (kk2.length + 2 - 0) =
        ch ++ (':' :: vs) := by
    constructor
    · have : kk2.length + 2 - 0 = kk.length + 1 := by
        rw [hkk]
        simp
      rw [this]
      rw [List.take_append 1]
      rfl
    · have : kk2.length + 2 - 0 = kk.length + 1 := by
        rw [hkk]
        simp
      rw [this]
      rw [List.drop_append 1]
      rfl
  have hcand1 :
      (kk ++ (' ' :: (ch ++ (':' :: vs)))).take (kk2.length + 2 - 1) = kk ∧
      (kk ++ (' ' :: (ch ++ (':' :: vs)))).drop (kk2.length + 2 - 1) =
        ' ' :: (ch ++ (':' :: vs)) := by
    constructor
    · have : kk2.length + 2 - 1 = kk.length := by
        rw [hkk]
        simp
      rw [this]
      exact List.take_left _ _
    · have : kk2.length + 2 - 1 = kk.length := by
        rw [hkk]
        simp
      rw [this]
      exact List.drop_left _ _
  have hsep0 : sepChapColon (ch ++ (':' :: vs)) = none := by
    rw [hche, List.cons_append]
    exact sepChapColon_none_head e _ (isDig_not_ws e he)
  have hsep1 : sepChapColon (' ' :: (ch ++ (':' :: vs))) = some (ch, vs) :=
    sepChapColon_compute ch vs hch hchd
  simp only [lettersCands, hrun, hlen]
  rw [List.range_succ_eq_map, List.range_succ_eq_map]
  simp only [List.map_cons, List.findSome?_cons, List.map_map]
  rw [hcand0.1, hcand0.2, hcand1.1, hcand1.2]
  simp only [hsep0, Option.none_bind, hsep1, Option.some_bind, htl,
    Option.map_some']

theorem keyok_plain (k ch vs : List Char)
    (hplain : goodKeyPlain k = true)
    (hch : ch ≠ []) (hchd : ∀ c ∈ ch, isDig c = true)
    (hvs : vs ≠ []) (hvsc : ∀ c ∈ vs, verseChar c = true) :
    matchA (k ++ (' ' :: (ch ++ (':' :: vs)))) = some (k, ch, vs) := by
  obtain ⟨c0, k1, rfl⟩ : ∃ c0 k1, k = c0 :: k1 := by
    cases k with
    | nil => exact absurd hplain (by decide)
    | cons c0 k1 => exact ⟨c0, k1, rfl⟩
  simp only [goodKeyPlain, Bool.and_eq_true] at hplain
  obtain ⟨⟨⟨hc0a, halla⟩, _⟩, _⟩ := hplain
  have hall : ∀ c ∈ c0 :: k1, letterSpace c = true :=
    fun c hc => List.all_eq_true.mp halla c hc
  have hc0ws : pyIsSpace c0 = false := isAlphaC_not_ws c0 hc0a
  have hc0d : digit13 c0 = false := isAlphaC_not_digit13 c0 hc0a
  have htl : tailLazy vs = some vs :=
    tailLazy_full vs hvs (fun c hc => verseChar_not_ws c (hvsc c hc))
  have hs_tw : (((c0 :: k1) ++ (' ' :: (ch ++ (':' :: vs)))).takeWhile pyIsSpace) = [] := by
    rw [List.cons_append, List.takeWhile_cons_of_neg (by simp [hc0ws])]
  show matchWith tailLazy _ = _
  simp only [matchWith, hs_tw, List.length_nil, Nat.zero_add, Nat.sub_self]
  rw [show List.range 1 = [0] from rfl]
  simp only [List.findSome?_cons, List.findSome?_nil, Nat.sub_zero, List.drop_zero]
  rw [List.cons_append]
  simp only [g1Cands]
  rw [if_neg (by simp [hc0d])]
  rw [List.nil_append]
  simp only [wsOptCands]
  rw [if_neg (by simp [hc0ws])]
  rw [List.nil_append]
  rw [← List.cons_append]
  have hmain := lettersPart (fun g => g) (c0 :: k1) ch vs tailLazy
    (by simp) hall hch hchd htl
  rw [hmain]

theorem keyok_digit (d : Char) (kl ch vs : List Char)
    (hd : digit13 d = true) (hkl : kl ≠ []) (hkla : ∀ c ∈ kl, isAlphaC c = true)
    (hch : ch ≠ []) (hchd : ∀ c ∈ ch, isDig c = true)
    (hvs : vs ≠ []) (hvsc : ∀ c ∈ vs, verseChar c = true) :
    matchA ((d :: ' ' :: kl) ++ (' ' :: (ch ++ (':' :: vs)))) =
      some (d :: ' ' :: kl, ch, vs) := by
  have hdws : pyIsSpace d = false := isDig_not_ws d (digit13_isDig d hd)
  have htl : tailLazy vs = some vs :=
    tailLazy_full vs hvs (fun c hc => verseChar_not_ws c (hvsc c hc))
  have hklls : ∀ c ∈ kl, letterSpace c = true := by
    intro c hc
    simp [letterSpace, hkla c hc]
  have hs_tw : (((d :: ' ' :: kl) ++ (' ' :: (ch ++ (':' :: vs)))).takeWhile pyIsSpace) = [] := by
    rw [List.cons_append, List.takeWhile_cons_of_neg (by simp [hdws])]
  show matchWith tailLazy _ = _
  simp only [matchWith, hs_tw, List.length_nil, Nat.zero_add, Nat.sub_self]
  rw [show List.range 1 = [0] from rfl]
  simp only [List.findSome?_cons, List.findSome?_nil, Nat.sub_zero, List.drop_zero]
  rw [List.cons_append, List.cons_append]
  simp only [g1Cands]
  rw [if_pos (by simp [hd])]
  rw [List.findSome?_append, List.findSome?_map]
  simp only [wsOptCands]
  rw [if_pos (by decide)]
  rw [List.findSome?_append, List.findSome?_map]
  have hmain := lettersPart (fun g => d :: ' ' :: g) kl ch vs tailLazy
    hkl hklls hch hchd htl
  have h1 : List.findSome?
      (((fun p : List Char × List Char =>
          (sepChapColon p.2).bind fun q =>
            Option.map (fun v => (p.1, q.1, v)) (tailLazy q.2)) ∘
          fun p : List Char × List Char => (d :: p.1, p.2)) ∘
        fun p : List Char × List Char => (' ' :: p.1, p.2))
      (lettersCands (kl ++ ' ' :: (ch ++ ':' :: vs))) =
      some (d :: ' ' :: kl, ch, vs) := hmain
  rw [h1]
  rfl

theorem keyok (k ch vs : List Char) (hk : goodKey k = true)
    (hch : ch ≠ []) (hchd : ∀ c ∈ ch, isDig c = true)
    (hvs : vs ≠ []) (hvsc : ∀ c ∈ vs, verseChar c = true) :
    matchA (k ++ (' ' :: (ch ++ (':' :: vs)))) = some (k, ch, vs) := by
  cases k with
  | nil => exact absurd hk (by decide)
  | cons c0 k1 =>
    cases k1 with
    | nil =>
      have hplain : goodKeyPlain [c0] = true := by simpa [goodKey] using hk
      exact keyok_plain [c0] ch vs hplain hch hchd hvs hvsc
    | cons c1 k2 =>
      simp only [goodKey] at hk
      by_cases hdw : (digit13 c0 && (c1 == ' ')) = true
      · rw [if_pos hdw] at hk
        obtain ⟨hd, hsp⟩ : digit13 c0 = true ∧ (c1 == ' ') = true := by
          simpa [Bool.and_eq_true] using hdw
        have hc1 : c1 = ' ' := by simpa using hsp
        subst hc1
        simp only [Bool.and_eq_true] at hk
        exact keyok_digit c0 k2 ch vs hd (by simpa using hk.1)
          (fun c hc => List.all_eq_true.mp hk.2 c hc) hch hchd hvs hvsc
      · rw [if_neg hdw] at hk
        exact keyok_plain (c0 :: c1 :: k2) ch vs hk hch hchd hvs hvsc

-- ## Identity of the normalizers on already-normal input

theorem replTo_id (l : List Char) (h : ∀ c ∈ l, c ≠ ' ') : replTo l = l := by
  induction l with
  | nil => rfl
  | cons c cs ih =>
    rcases cs with _ | ⟨c2, _ | ⟨c3, _ | ⟨c4, rest⟩⟩⟩
    · rfl
    · rfl
    · rfl
    · show (if c = ' ' ∧ c2 = 't' ∧ c3 = 'o' ∧ c4 = ' ' then '-' :: replTo rest
        else c :: replTo (c2 :: c3 :: c4 :: rest)) = _
      rw [if_neg (fun hh => h c (by simp) hh.1)]
      rw [ih (fun x hx => h x (by simp [hx]))]

theorem replDash_id_verse (c : Char) (h : verseChar c = true) : replDash c = c := by
  unfold replDash
  refine if_neg ?_
  intro hq
  rcases Bool.or_eq_true_iff.mp hq with hq | hq
  · have hc : c = '–' := by simpa using hq
    subst hc
    exact absurd h (by decide)
  · have hc : c = '—' := by simpa using hq
    subst hc
    exact absurd h (by decide)

theorem verseChar_classVerse (c : Char) (h : verseChar c = true) :
    classVerse c = true := by
  simp only [verseChar, Bool.or_eq_true] at h
  simp only [classVerse, Bool.or_eq_true]
  rcases h with (h | h) | h
  · exact Or.inl (Or.inl (Or.inl h))
  · exact Or.inl (Or.inl (Or.inr h))
  · exact Or.inl (Or.inr h)

theorem normalizeVerses_id (vs : List Char)
    (hall : ∀ c ∈ vs, verseChar c = true)
    (hno : noTwo (fun c => c == ',') vs = true)
    (hhead : vs.head? ≠ some ',') (hlast : vs.getLast? ≠ some ',') :
    normalizeVersesL vs = vs := by
  have hnws : ∀ c ∈ vs, pyIsSpace c = false :=
    fun c hc => verseChar_not_ws c (hall c hc)
  have h1 : pyStrip vs = vs :=
    stripBy_id _ _ (fun c hc => hnws c (List.mem_of_mem_head? hc))
      (fun c hc => hnws c (List.mem_of_mem_getLast? hc))
  have h2 : vs.map replDash = vs :=
    map_id_of_mem _ _ (fun c hc => replDash_id_verse c (hall c hc))
  have h3 : replTo vs = vs := by
    refine replTo_id vs (fun c hc hsp => ?_)
    subst hsp
    exact absurd (hnws _ hc) (by decide)
  have h4 : vs.filter classVerse = vs :=
    List.filter_eq_self.mpr (fun c hc => verseChar_classVerse c (hall c hc))
  have h5 : vs.filter (fun c => !pyIsSpace c) = vs :=
    List.filter_eq_self.mpr (fun c hc => by simp [hnws c hc])
  have h6 : collapseRuns (fun c => c == ',') ',' false vs = vs :=
    collapseRuns_id _ _ _ hno (fun c _ hb => by simpa using hb)
  have h7 : stripBy (fun c => c == ',') vs = vs := by
    refine stripBy_id _ _ (fun c hc => ?_) (fun c hc => ?_)
    · cases hq : c == ',' with
      | false => rfl
      | true =>
        have hc2 : c = ',' := by simpa using hq
        subst hc2
        exact absurd hc hhead
    · cases hq : c == ',' with
      | false => rfl
      | true =>
        have hc2 : c = ',' := by simpa using hq
        subst hc2
        exact absurd hc hlast
  simp only [normalizeVersesL, h1, h2, h3, h4, h5, h6, h7]

theorem singleSpaced_space_cons (X : List Char) (hX : singleSpaced X = true)
    (hh : ∀ c, X.head? = some c → pyIsSpace c = false) :
    singleSpaced (' ' :: X) = true := by
  simp only [singleSpaced, Bool.and_eq_true]
  refine ⟨?_, hX⟩
  rw [if_pos (by decide)]
  simp only [Bool.and_eq_true]
  refine ⟨by decide, ?_⟩
  cases X with
  | nil => rfl
  | cons d X2 => simp [hh d rfl]

theorem getLast?_cons_of_ne_nil (c : Char) (Z : List Char) (h : Z ≠ []) :
    (c :: Z).getLast? = Z.getLast? := by
  cases Z with
  | nil => exact absurd rfl h
  | cons z Z2 => exact List.getLast?_cons_cons ..

theorem goodKey_clean (k : List Char) (hk : goodKey k = true) :
    singleSpaced k = true ∧
    (∀ c, k.head? = some c → pyIsSpace c = false) ∧
    (∀ c, k.getLast? = some c → pyIsSpace c = false) := by
  cases k with
  | nil => exact absurd hk (by decide)
  | cons c0 k1 =>
    have plainCase : ∀ kk : List Char, goodKeyPlain kk = true →
        singleSpaced kk = true ∧
        (∀ c, kk.head? = some c → pyIsSpace c = false) ∧
        (∀ c, kk.getLast? = some c → pyIsSpace c = false) := by
      intro kk hp
      cases kk with
      | nil => exact absurd hp (by decide)
      | cons d0 kk1 =>
        simp only [goodKeyPlain, Bool.and_eq_true] at hp
        obtain ⟨⟨⟨hd0, _⟩, hlst⟩, hss⟩ := hp
        refine ⟨hss, ?_, ?_⟩
        · intro c hc
          simp only [List.head?_cons, Option.some.injEq] at hc
          rw [← hc]
          exact isAlphaC_not_ws d0 hd0
        · intro c hc
          rw [hc] at hlst
          exact isAlphaC_not_ws c hlst
    cases k1 with
    | nil =>
      exact plainCase [c0] (by simpa [goodKey] using hk)
    | cons c1 k2 =>
      simp only [goodKey] at hk
      by_cases hdw : (digit13 c0 && (c1 == ' ')) = true
      · rw [if_pos hdw] at hk
        obtain ⟨hd, hsp⟩ : digit13 c0 = true ∧ (c1 == ' ') = true := by
          simpa [Bool.and_eq_true] using hdw
        have hc1 : c1 = ' ' := by simpa using hsp
        subst hc1
        simp only [Bool.and_eq_true] at hk
        obtain ⟨hk2ne, hk2a⟩ := hk
        have hk2ne2 : k2 ≠ [] := by simpa using hk2ne
        have hk2alpha : ∀ c ∈ k2, isAlphaC c = true :=
          fun c hc => List.all_eq_true.mp hk2a c hc
        have hd0ws : pyIsSpace c0 = false := isDig_not_ws c0 (digit13_isDig c0 hd)
        refine ⟨?_, ?_, ?_⟩
        · simp only [singleSpaced, Bool.and_eq_true]
          refine ⟨by rw [if_neg (by simp [hd0ws])], ?_, ?_⟩
          · rw [if_pos (by decide)]
            simp only [Bool.and_eq_true]
            refine ⟨by decide, ?_⟩
            cases k2 with
            | nil => exact absurd rfl hk2ne2
            | cons a k3 =>
              simp [isAlphaC_not_ws a (hk2alpha a (by simp))]
          · exact allNonWs_singleSpaced _
              (fun c hc => isAlphaC_not_ws c (hk2alpha c hc))
        · intro c hc
          simp only [List.head?_cons, Option.some.injEq] at hc
          rw [← hc]
          exact hd0ws
        · intro c hc
          rw [List.getLast?_cons_cons, getLast?_cons_of_ne_nil _ _ hk2ne2] at hc
          exact isAlphaC_not_ws c (hk2alpha c (List.mem_of_mem_getLast? hc))
      · rw [if_neg hdw] at hk
        exact plainCase (c0 :: c1 :: k2) hk

theorem s_clean (k ch vs : List Char) (hk : goodKey k = true)
    (hchd : ∀ c ∈ ch, isDig c = true)
    (hvs : vs ≠ []) (hvsc : ∀ c ∈ vs, verseChar c = true) :
    pyStrip (collapseWs (k ++ (' ' :: (ch ++ (':' :: vs))))) =
      k ++ (' ' :: (ch ++ (':' :: vs))) := by
  obtain ⟨hss, hkh, hkl⟩ := goodKey_clean k hk
  have hXnws : ∀ c ∈ ch ++ (':' :: vs), pyIsSpace c = false := by
    intro c hc
    rcases List.mem_append.mp hc with hc | hc
    · exact isDig_not_ws c (hchd c hc)
    · rcases List.mem_cons.mp hc with hc | hc
      · subst hc
        decide
      · exact verseChar_not_ws c (hvsc c hc)
  have hys : singleSpaced (' ' :: (ch ++ (':' :: vs))) = true := by
    refine singleSpaced_space_cons _ ?_ ?_
    · exact allNonWs_singleSpaced _ hXnws
    · intro c hc
      exact hXnws c (List.mem_of_mem_head? hc)
  have hsS : singleSpaced (k ++ (' ' :: (ch ++ (':' :: vs)))) = true := by
    refine singleSpaced_append _ _ hss hys ?_
    intro c hc hw
    exact absurd hw (by simp [hkl c hc])
  have hcoll : collapseWs (k ++ (' ' :: (ch ++ (':' :: vs)))) =
      k ++ (' ' :: (ch ++ (':' :: vs))) := collapseWs_id _ hsS
  rw [hcoll]
  refine stripBy_id _ _ ?_ ?_
  · intro c hc
    cases k with
    | nil => exact absurd hk (by decide)
    | cons c0 k1 =>
      rw [List.cons_append] at hc
      simp only [List.head?_cons, Option.some.injEq] at hc
      exact hkh c (by rw [← hc]; rfl)
  · intro c hc
    have hvs2 : (':' :: vs) ≠ [] := by simp
    have hY : (' ' :: (ch ++ (':' :: vs))) ≠ [] := by simp
    rw [List.getLast?_append_of_ne_nil _ hY,
      getLast?_cons_of_ne_nil _ _ (by simp),
      List.getLast?_append_of_ne_nil _ hvs2,
      getLast?_cons_of_ne_nil _ _ hvs] at hc
    exact verseChar_not_ws c (hvsc c (List.mem_of_mem_getLast? hc))

/-- C2 amended: slug derivation is deterministic, and although one
application need not be a fixed point (see the counterexample), the second
application always is: slug(slug(s)) is unchanged by a further application. -/
theorem c2_deterministic_and_eventually_idempotent :
    (∀ s t : String, s = t → slug_from_reference s = slug_from_reference t) ∧
    (∀ s : String,
      slug_from_reference (slug_from_reference (slug_from_reference s)) =
        slug_from_reference (slug_from_reference s)) :=
  ⟨fun s t h => by rw [h], slug_slug_fixed⟩

theorem bookmap_keys_good :
    BOOK_MAP.all (fun p => (p.1 == "Lk.") || goodKey p.1.data) = true := by
  decide

/-- C1 amended: for every key of BOOK_MAP except "Lk." (whose period cannot
match the sanitizer regex), sanitizing "key chapter:verses" — with a
nonempty all-digit chapter and a nonempty verse string over digits, commas
and hyphens having no leading, trailing or doubled comma — yields
"canonical chapter:verses" with the table's canonical name. -/
theorem c1_book_table (key canon c8ref v8s : String)
    (hlook : BOOK_MAP.lookup key = some canon) (hkey : key ≠ "Lk.")
    (hch : c8ref.data ≠ []) (hchd : ∀ c ∈ c8ref.data, isDig c = true)
    (hvs : v8s.data ≠ []) (hvsc : ∀ c ∈ v8s.data, verseChar c = true)
    (hno : noTwo (fun c => c == ',') v8s.data = true)
    (hhead : v8s.data.head? ≠ some ',') (hlast : v8s.data.getLast? ≠ some ',') :
    sanitize_ref ⟨key.data ++ (' ' :: (c8ref.data ++ (':' :: v8s.data)))⟩ =
      ⟨canon.data ++ (' ' :: (c8ref.data ++ (':' :: v8s.data)))⟩ := by
  have hmem := lookup_mem hlook
  have hgood : goodKey key.data = true := by
    have hall := List.all_eq_true.mp bookmap_keys_good _ hmem
    rcases Bool.or_eq_true_iff.mp hall with h | h
    · exact absurd (by simpa using h) hkey
    · exact h
  have hkne : key.data ≠ [] := by
    intro h0
    rw [h0] at hgood
    exact absurd hgood (by decide)
  have hrefne :
      (⟨key.data ++ (' ' :: (c8ref.data ++ (':' :: v8s.data)))⟩ : String) ≠ "" := by
    intro h0
    have h1 : key.data ++ (' ' :: (c8ref.data ++ (':' :: v8s.data))) = [] :=
      congrArg String.data h0
    cases hkd : key.data with
    | nil => exact hkne hkd
    | cons a t =>
      rw [hkd, List.cons_append] at h1
      cases h1
  have hT : pyStrip (collapseWs
      (key.data ++ (' ' :: (c8ref.data ++ (':' :: v8s.data))))) =
      key.data ++ (' ' :: (c8ref.data ++ (':' :: v8s.data))) :=
    s_clean key.data c8ref.data v8s.data hgood hchd hvs hvsc
  have hM : matchA (key.data ++ (' ' :: (c8ref.data ++ (':' :: v8s.data)))) =
      some (key.data, c8ref.data, v8s.data) :=
    keyok key.data c8ref.data v8s.data hgood hch hchd hvs hvsc
  have hnb : normalize_book ⟨key.data⟩ = canon := by
    obtain ⟨hss, hkh, hkl⟩ := goodKey_clean key.data hgood
    have h1 : pyStrip key.data = key.data := stripBy_id _ _ hkh hkl
    have h2 : collapseWs key.data = key.data := collapseWs_id _ hss
    simp only [normalize_book, h1, h2]
    rw [show (⟨key.data⟩ : String) = key from rfl, hlook]
    rfl
  have hnv : normalize_verses ⟨v8s.data⟩ = ⟨v8s.data⟩ := by
    simp only [normalize_verses]
    rw [show String.data ⟨v8s.data⟩ = v8s.data from rfl,
      normalizeVerses_id v8s.data hvsc hno hhead hlast]
  unfold sanitize_ref
  rw [if_neg hrefne]
  dsimp only
  rw [hT]
  simp only [hM]
  rw [hnb, hnv]
  show (⟨canon.data ++ ' ' :: c8ref.data ++ ':' :: v8s.data⟩ : String) = _
  simp [List.append_assoc]

/-- C1 counterexample: "Lk." is an abbreviation key of BOOK_MAP (mapped to
"Luke"), but sanitizing "Lk. 14:12-14" returns the input unchanged — the
period cannot match the regex character class — not "Luke 14:12-14". -/
theorem c1_counterexample :
    ("Lk.", "Luke") ∈ BOOK_MAP ∧
    sanitize_ref "Lk. 14:12-14" = "Lk. 14:12-14" ∧
    sanitize_ref "Lk. 14:12-14" ≠ "Luke 14:12-14" := by
  refine ⟨by decide, by decide, by decide⟩

/-- witness for the amended C1 at key "Gen". -/
theorem c1_witness : sanitize_ref "Gen 5:1-3" = "Genesis 5:1-3" :=
  c1_book_table "Gen" "Genesis" "5" "1-3" (by decide) (by decide) (by decide)
    (by decide) (by decide) (by decide) (by decide) (by decide) (by decide)

/-- witness for the amended C2 at "Jn 3:16". -/
theorem c2_witness :
    slug_from_reference "Jn 3:16" = slug_from_reference "Jn 3:16" ∧
    slug_from_reference (slug_from_reference (slug_from_reference "Jn 3:16")) =
      slug_from_reference (slug_from_reference "Jn 3:16") :=
  ⟨c2_deterministic_and_eventually_idempotent.1 "Jn 3:16" "Jn 3:16" rfl,
    c2_deterministic_and_eventually_idempotent.2 "Jn 3:16"⟩

end Daily
